import Mathlib

/-!
Verification of the generic nested-JSON editing engine ("PathCodec") of
`agentic_billing_usage_script.py`: the functions `flatten_dict`,
`set_nested_value` and `get_nested_value`.

Modelling conventions (shallow embedding of the Python source):
* A Python value in a document tree is a `Document`: objects are ordered
  association lists (Python `dict` preserves insertion order), arrays are
  lists, leaves are scalars (`str`, `int`, `float`, `bool`, `None`).
* Python `str` is modelled as `List Char`.
* Python dict keys can be strings or (via `int(key)` conversions inside the
  walk code) integers, hence `PyKey`.
* Python `float` is modelled as an exact rational; every numeric literal the
  code paths in scope produce (decimal strings without exponent) is exactly
  representable, and no claim depends on rounding.
* Exceptions (`KeyError`, `IndexError`, `TypeError`) are modelled with
  `Except PyErr`; a raised exception is `.error e`.  The in-place partial
  mutation a raising call may leave behind is not observable in any claim,
  so the model returns only the final document of a non-raising call.
* Recursion over the nested `Document` tree is phrased with an explicit
  fuel argument (`sizeOf` always supplies enough) so that every definition
  is structural and therefore kernel-computable; fuel-irrelevance lemmas
  below recover the natural recursion equations.
-/

/-- Python scalar leaf values. -/
inductive PyVal where
  | str (s : List Char)
  | int (n : Int)
  | float (q : ℚ)
  | bool (b : Bool)
  | none
deriving DecidableEq, Repr

/-- A Python dict key as produced by the codec: either a string key or an
integer key (the walk converts all-digit path segments with `int(key)`). -/
inductive PyKey where
  | str (s : List Char)
  | int (n : Nat)
deriving DecidableEq, Repr

/-- A document tree: objects (insertion-ordered dicts), arrays, scalars. -/
inductive Document where
  | scalar (v : PyVal)
  | obj (fields : List (PyKey × Document))
  | arr (elems : List Document)
deriving Repr

/-- The Python exceptions the codec can raise. -/
inductive PyErr where
  | keyError
  | indexError
  | typeError
deriving DecidableEq, Repr

/-! ### Decimal digits -/

/-- Python's `str.isdigit` on the ASCII strings in scope: nonempty and all
characters are decimal digits. -/
def pyIsdigit (s : List Char) : Bool :=
  !s.isEmpty && s.all (·.isDigit)

/-- Numeric value of a digit character. -/
def digitVal (c : Char) : Nat := c.toNat - 48

/-- Decimal value of a digit string; models `int(key)` on a string for which
`key.isdigit()` already holds. -/
def digitsToNat (s : List Char) : Nat :=
  s.foldl (fun a c => a * 10 + digitVal c) 0

/-- Fuelled decimal rendering helper (the fuel makes the definition
structural, hence kernel-computable; `natToChars` always supplies enough). -/
def natToCharsF : Nat → Nat → List Char
  | 0, _ => []
  | fuel + 1, n =>
    if n < 10 then [Char.ofNat (48 + n)]
    else natToCharsF fuel (n / 10) ++ [Char.ofNat (48 + n % 10)]

/-- Decimal rendering of a natural number, as in Python's f-string `f"{i}"`. -/
def natToChars (n : Nat) : List Char := natToCharsF (n + 1) n

/-! ### Path parsing: `path.replace(']','').split('[')` + per-chunk `.split('.')` -/

/-- Python `str.split(sep)` with a one-character separator (always returns at
least one chunk; `"".split(c) == [""]`). -/
def pySplit (c : Char) : List Char → List (List Char)
  | [] => [[]]
  | a :: t =>
    if a = c then [] :: pySplit c t
    else
      match pySplit c t with
      | [] => [[a]]
      | s :: ss => (a :: s) :: ss

/-- `keys = path.replace(']', '').split('[')` followed by
`[k for part in keys for k in part.split('.') if k]`. -/
def parseKeys (path : List Char) : List (List Char) :=
  ((pySplit '[' (path.filter (· ≠ ']'))).flatMap (pySplit '.')).filter (· ≠ [])

/-- A textual segment as the walk uses it: `if key.isdigit(): key = int(key)`. -/
def effKey (k : List Char) : PyKey :=
  if pyIsdigit k then .int (digitsToNat k) else .str k

/-! ### Python numeric parsing (`int(s)` / `float(s)`)

Modelled for the string shapes in scope: optional surrounding spaces,
optional sign, decimal digits (for `float` an optional single point).
Exponents, `inf`/`nan` and underscore digit separators are outside the
behaviour any claim exercises and are modelled as parse failures. -/

/-- Strip leading and trailing spaces. -/
def stripSpaces (s : List Char) : List Char :=
  ((s.dropWhile (· = ' ')).reverse.dropWhile (· = ' ')).reverse

/-- Nonempty all-digit string to its value, else `none`. -/
def digitsOpt (s : List Char) : Option Nat :=
  if pyIsdigit s then some (digitsToNat s) else none

/-- Models Python `int(s)` for a string argument. -/
def pyIntParse (s : List Char) : Option Int :=
  match stripSpaces s with
  | '+' :: t => (digitsOpt t).map Int.ofNat
  | '-' :: t => (digitsOpt t).map (fun n => -(n : Int))
  | t => (digitsOpt t).map Int.ofNat

/-- Unsigned decimal with an optional single point, to an exact rational. -/
def pyUnsignedFloat (s : List Char) : Option ℚ :=
  let ds := s.takeWhile (·.isDigit)
  let rest := s.dropWhile (·.isDigit)
  match rest with
  | [] => if ds.isEmpty then none else some (digitsToNat ds : ℚ)
  | '.' :: fs =>
    if fs.all (·.isDigit) && (!ds.isEmpty || !fs.isEmpty) then
      some ((digitsToNat ds : ℚ) + (digitsToNat fs : ℚ) / (10 : ℚ) ^ fs.length)
    else none
  | _ => none

/-- Models Python `float(s)` for a string argument. -/
def pyFloatParse (s : List Char) : Option ℚ :=
  match stripSpaces s with
  | '+' :: t => pyUnsignedFloat t
  | '-' :: t => (pyUnsignedFloat t).map Neg.neg
  | t => pyUnsignedFloat t

/-! ### Association-list operations mirroring Python dict behaviour -/

/-- First-match lookup (`current[key]` read on a dict). -/
def lookupKey (k : PyKey) : List (PyKey × Document) → Option Document
  | [] => none
  | (k', v) :: t => if k' = k then some v else lookupKey k t

/-- Value update of an existing key, preserving insertion order
(`current[key] = v` on a dict that already contains `key`). -/
def updateKey (k : PyKey) (v : Document) : List (PyKey × Document) → List (PyKey × Document)
  | [] => []
  | (k', v') :: t => if k' = k then (k', v) :: t else (k', v') :: updateKey k v t

/-! ### `dict(items)`: first-occurrence position, last-occurrence value -/

/-- Value update of an existing path key, preserving position. -/
def updatePath (k : List Char) (v : Document) :
    List (List Char × Document) → List (List Char × Document)
  | [] => []
  | (k', v') :: t => if k' = k then (k', v) :: t else (k', v') :: updatePath k v t

/-- Whether a path key is already present. -/
def containsPath (k : List Char) (l : List (List Char × Document)) : Bool :=
  l.any (fun p => p.1 = k)

/-- One step of Python dict construction: an existing key keeps its position
and takes the new value, a new key is appended. -/
def pyInsert (acc : List (List Char × Document)) (p : List Char × Document) :
    List (List Char × Document) :=
  if containsPath p.1 acc then updatePath p.1 p.2 acc else acc ++ [p]

/-- Python `dict(items)`: each key appears once, at the position of its first
occurrence, bound to the value of its last occurrence. -/
def pyDict (l : List (List Char × Document)) : List (List Char × Document) :=
  l.foldl pyInsert []

/-! ### `flatten_dict`

```python
def flatten_dict(d, parent_key='', sep='.'):
    items = []
    for k, v in d.items():
        new_key = f"{parent_key}{sep}{k}" if parent_key else k
        if isinstance(v, dict):
            items.extend(flatten_dict(v, new_key, sep=sep).items())
        elif isinstance(v, list):
            for i, item in enumerate(v):
                if isinstance(item, dict):
                    items.extend(flatten_dict(item, f"{new_key}[{i}]", sep=sep).items())
                else:
                    items.append((f"{new_key}[{i}]", item))
        else:
            items.append((new_key, v))
    return dict(items)
```
The function is only ever called with the default separator `'.'`. -/

/-- Rendering of a dict key inside an f-string (`f"{k}"`). -/
def keyChars : PyKey → List Char
  | .str s => s
  | .int n => natToChars n

/-- `new_key = f"{parent_key}.{k}" if parent_key else k`. -/
def newKey (parent : List Char) (k : PyKey) : List Char :=
  if parent.isEmpty then keyChars k else parent ++ '.' :: keyChars k

/-- `f"{new_key}[{i}]"`. -/
def idxKey (nk : List Char) (i : Nat) : List Char :=
  nk ++ '[' :: natToChars i ++ [']']

mutual

/-- The `items` list accumulated by `flatten_dict` before the final
`dict(...)`; inner recursive calls contribute their own `dict(...).items()`. -/
def flattenItems : List (PyKey × Document) → List Char → List (List Char × Document)
  | [], _ => []
  | (k, child) :: rest, parent =>
    (match child with
     | .obj f => pyDict (flattenItems f (newKey parent k))
     | .arr elems => flattenArr elems (newKey parent k) 0
     | .scalar _ => [(newKey parent k, child)]) ++ flattenItems rest parent

/-- The inner `for i, item in enumerate(v)` loop over a list value. -/
def flattenArr : List Document → List Char → Nat → List (List Char × Document)
  | [], _, _ => []
  | item :: rest, nk, i =>
    (match item with
     | .obj f => pyDict (flattenItems f (idxKey nk i))
     | _ => [(idxKey nk i, item)]) ++ flattenArr rest nk (i + 1)

end

/-- `flatten_dict(d, parent_key, sep='.')`. -/
def flatten_dict (fields : List (PyKey × Document)) (parent : List Char) :
    List (List Char × Document) :=
  pyDict (flattenItems fields parent)

/-! ### `set_nested_value` -/

/-- `isinstance(x, (int, float))` — note Python's `bool` is a subclass of
`int`, so booleans satisfy this check. -/
def pyNumeric : Document → Bool
  | .scalar (.int _) => true
  | .scalar (.float _) => true
  | .scalar (.bool _) => true
  | _ => false

/-- `float(value) if '.' in value else int(value)` on a string value. -/
def coerceStr (s : List Char) : Option PyVal :=
  if '.' ∈ s then (pyFloatParse s).map .float else (pyIntParse s).map .int

/-- The "try to preserve type" block of `set_nested_value`:
```python
    if isinstance(current[last_key] ..., (int, float)):
        try:
            value = float(value) if '.' in value else int(value)
        except:
            pass
```
For a non-string `value` the conversion (or already the `'.' in value`
membership test) raises inside the `try`, so `value` is left unchanged. -/
def coerceValue (old v : Document) : Document :=
  if pyNumeric old then
    match v with
    | .scalar (.str s) =>
      match coerceStr s with
      | some w => .scalar w
      | none => v
    | _ => v
  else v

/-- The write at the final segment of `set_nested_value`: the read
`current[last_key]` (which raises on a missing key / out-of-range index /
unsubscriptable or immutable node), the type-preserving coercion, and the
assignment `current[last_key] = value`. -/
def setLast (d : Document) (last : List Char) (v : Document) : Except PyErr Document :=
  match d with
  | .obj fields =>
    match lookupKey (effKey last) fields with
    | some old => .ok (.obj (updateKey (effKey last) (coerceValue old v) fields))
    | none => .error .keyError
  | .arr elems =>
    if pyIsdigit last then
      if h : digitsToNat last < elems.length then
        .ok (.arr (elems.set (digitsToNat last) (coerceValue elems[digitsToNat last] v)))
      else .error .indexError
    else .error .typeError
  | .scalar (.str s) =>
    -- reading `s[i]` can succeed, but the assignment then raises TypeError;
    -- an out-of-range index already raises IndexError at the read
    if pyIsdigit last then
      if digitsToNat last < s.length then .error .typeError else .error .indexError
    else .error .typeError
  | .scalar _ => .error .typeError

/-- The walk of `set_nested_value` over `keys[:-1]` followed by the final
write; `segs` is the still-to-process tail of `keys` (never `[]` here).
On a dict missing the key, a fresh `[]`/`{}` is inserted according to the
next segment and the walk continues inside it. -/
def setKeys : Document → List (List Char) → Document → Except PyErr Document
  | d, [last], v => setLast d last v
  | d, k :: next :: rest, v =>
    (match d with
     | .arr elems =>
       if pyIsdigit k then
         if h : digitsToNat k < elems.length then
           (setKeys elems[digitsToNat k] (next :: rest) v).map
             (fun r => .arr (elems.set (digitsToNat k) r))
         else .error .indexError
       else .error .typeError
     | .obj fields =>
       match lookupKey (effKey k) fields with
       | some child =>
         (setKeys child (next :: rest) v).map
           (fun r => .obj (updateKey (effKey k) r fields))
       | none =>
         let fresh : Document := if pyIsdigit next then .arr [] else .obj []
         (setKeys fresh (next :: rest) v).map
           (fun r => .obj (fields ++ [(effKey k, r)]))
     | .scalar _ => .error .typeError)
  | _, [], _ => .error .indexError

/-- `set_nested_value(d, path, value)`; an empty parsed segment list makes
`keys[-1]` raise IndexError. -/
def set_nested_value (d : Document) (path : List Char) (v : Document) :
    Except PyErr Document :=
  match parseKeys path with
  | [] => .error .indexError
  | k :: rest => setKeys d (k :: rest) v

/-! ### `get_nested_value` -/

/-- One step `current = current[key]` of `get_nested_value`. -/
def get1 (d : Document) (key : PyKey) : Except PyErr Document :=
  match d, key with
  | .obj fields, _ =>
    match lookupKey key fields with
    | some child => .ok child
    | none => .error .keyError
  | .arr elems, .int i =>
    if h : i < elems.length then .ok elems[i] else .error .indexError
  | .arr _, .str _ => .error .typeError
  | .scalar (.str s), .int i =>
    if h : i < s.length then .ok (.scalar (.str [s[i]])) else .error .indexError
  | .scalar (.str _), .str _ => .error .typeError
  | .scalar _, _ => .error .typeError

/-- The full walk of `get_nested_value` over already-converted keys. -/
def keyedGet (d : Document) : List PyKey → Except PyErr Document
  | [] => .ok d
  | k :: rest => (get1 d k).bind (fun c => keyedGet c rest)

/-- `get_nested_value(d, path)`. -/
def get_nested_value (d : Document) (path : List Char) : Except PyErr Document :=
  keyedGet d ((parseKeys path).map effKey)

/-! ### Spec-side notions used to state the claims -/

/-- Structural lookup of a tree position: descends objects and arrays and
stops at scalars (no Python string indexing).  This is the document-tree
notion of "the leaf at a path" the spec's claims quantify over. -/
def treeGet (d : Document) : List PyKey → Option Document
  | [] => some d
  | k :: rest =>
    match d, k with
    | .obj fields, _ => (lookupKey k fields).bind (fun c => treeGet c rest)
    | .arr elems, .int i => if h : i < elems.length then treeGet elems[i] rest else none
    | _, _ => none

/-- The effective key sequence a path denotes for the codec's walks. -/
def effKeys (path : List Char) : List PyKey :=
  (parseKeys path).map effKey

mutual

/-- Number of scalar leaves of a document, counted recursively over the whole
tree ("Leaf coverage", spec §8.2). -/
def countLeaves : Document → Nat
  | .scalar _ => 1
  | .obj fields => countLeavesFl fields
  | .arr elems => countLeavesEl elems

/-- Leaves under an object's fields. -/
def countLeavesFl : List (PyKey × Document) → Nat
  | [] => 0
  | (_, c) :: t => countLeaves c + countLeavesFl t

/-- Leaves under an array's elements. -/
def countLeavesEl : List Document → Nat
  | [] => 0
  | c :: t => countLeaves c + countLeavesEl t

end

/-- A benign object key: a nonempty string that is not all digits and
contains none of the path-syntax characters `.`, `[`, `]`.  (Keys outside
this set collide with the path grammar.) -/
def goodKeyChars (s : List Char) : Bool :=
  !s.isEmpty && !pyIsdigit s && s.all (fun c => c ≠ '.' && c ≠ '[' && c ≠ ']')

/-- A benign dict key (string-valued and benign as a string). -/
def goodKey : PyKey → Bool
  | .str s => goodKeyChars s
  | .int _ => false

/-- No key occurs twice (Python dicts guarantee this). -/
def nodupKeys : List PyKey → Bool
  | [] => true
  | k :: t => t.all (fun x => x ≠ k) && nodupKeys t

mutual

/-- Well-formed document: object keys are benign and unique at every level. -/
def goodDoc : Document → Bool
  | .scalar _ => true
  | .obj fields => goodFields fields && nodupKeys (fields.map Prod.fst)
  | .arr elems => goodElems elems

/-- Well-formedness of an object's fields. -/
def goodFields : List (PyKey × Document) → Bool
  | [] => true
  | (k, c) :: t => goodKey k && goodDoc c && goodFields t

/-- Well-formedness of an array's elements. -/
def goodElems : List Document → Bool
  | [] => true
  | c :: t => goodDoc c && goodElems t

end

mutual

/-- No array element is itself an array (such elements are not recursed
into by `flatten_dict`). -/
def noArrInArr : Document → Bool
  | .scalar _ => true
  | .obj fields => noArrInArrFl fields
  | .arr elems => noArrInArrEl elems

/-- `noArrInArr` over an object's fields. -/
def noArrInArrFl : List (PyKey × Document) → Bool
  | [] => true
  | (_, c) :: t => noArrInArr c && noArrInArrFl t

/-- `noArrInArr` over an array's elements; additionally no element is an
array. -/
def noArrInArrEl : List Document → Bool
  | [] => true
  | c :: t => (match c with | .arr _ => false | _ => true) && noArrInArr c && noArrInArrEl t

end

/-- String literal to the `List Char` model of Python strings. -/
def chars (s : String) : List Char := s.data

/-- A Python string value as a document leaf. -/
def pystr (s : String) : Document := .scalar (.str s.data)

/-- Re-applying a list of `(path, value)` pairs with `set_nested_value`,
stopping at the first raised exception. -/
def applyAll (d : Document) (pairs : List (List Char × Document)) : Except PyErr Document :=
  pairs.foldlM (fun acc pv => set_nested_value acc pv.1 pv.2) d

/-- Only string keys (documents built from JSON have no integer dict keys). -/
def strKeyed (fields : List (PyKey × Document)) : Bool :=
  fields.all (fun p => match p.1 with | .str _ => true | .int _ => false)

/-- The failure situations enumerated by the spec for a walk segment `k`
applied at node `n`: a key segment absent from an object, an index segment
out of range for an array, a key segment applied to an array, or an index
segment applied to a (string-keyed) object. -/
def badSegment (n : Document) (k : List Char) : Prop :=
  (∃ fields, n = .obj fields ∧ pyIsdigit k = false ∧ lookupKey (.str k) fields = none) ∨
  (∃ elems, n = .arr elems ∧ pyIsdigit k = true ∧ elems.length ≤ digitsToNat k) ∨
  (∃ elems, n = .arr elems ∧ pyIsdigit k = false) ∨
  (∃ fields, n = .obj fields ∧ pyIsdigit k = true ∧ strKeyed fields = true)

/-- The spec's own type-coercion example document
`{"data": {"meters": [{"quantity": 10}]}}`. -/
def metersDoc : Document :=
  .obj [(.str (chars "data"), .obj [(.str (chars "meters"),
    .arr [.obj [(.str (chars "quantity"), .scalar (.int 10))]])])]

/-- Extend the last chunk of a split result. -/
def appLast : List (List Char) → List Char → List (List Char)
  | [], z => [z]
  | [x], z => [x ++ z]
  | x :: l, z => x :: appLast l z

mutual

/-- At every object level reached by the traversal (with its actual path
prefix), the generated path strings are pairwise distinct — the condition
under which the `dict(items)` constructors drop nothing. -/
def pathsNodupF : List (PyKey × Document) → List Char → Bool
  | [], _ => true
  | (k, child) :: rest, parent =>
    (match child with
     | .obj f => pathsNodupD f (newKey parent k)
     | .arr elems => pathsNodupA elems (newKey parent k) 0
     | .scalar _ => true) && pathsNodupF rest parent
termination_by l _ => (sizeOf l, 0)
decreasing_by
  all_goals simp_wf
  all_goals
    first
      | (apply Prod.Lex.right; omega)
      | (apply Prod.Lex.left; simp; try omega)
      | (apply Prod.Lex.left; omega)

/-- Duplicate-freedom for one object node: its own item paths are distinct
and so are all deeper levels. -/
def pathsNodupD (f : List (PyKey × Document)) (nk : List Char) : Bool :=
  decide (((flattenItems f nk).map Prod.fst).Nodup) && pathsNodupF f nk
termination_by (sizeOf f, 1)
decreasing_by
  all_goals simp_wf
  all_goals
    first
      | (apply Prod.Lex.right; omega)
      | (apply Prod.Lex.left; simp; try omega)
      | (apply Prod.Lex.left; omega)

/-- `pathsNodupF` over the elements of an array. -/
def pathsNodupA : List Document → List Char → Nat → Bool
  | [], _, _ => true
  | item :: rest, nk, i =>
    (match item with
     | .obj f => pathsNodupD f (idxKey nk i)
     | _ => true) && pathsNodupA rest nk (i + 1)
termination_by e _ _ => (sizeOf e, 0)
decreasing_by
  all_goals simp_wf
  all_goals
    first
      | (apply Prod.Lex.right; omega)
      | (apply Prod.Lex.left; simp; try omega)
      | (apply Prod.Lex.left; omega)

end

/-- Paths are duplicate-free at the root level and at every deeper level. -/
def pathsNodup (fields : List (PyKey × Document)) (parent : List Char) : Bool :=
  decide (((flattenItems fields parent).map Prod.fst).Nodup) && pathsNodupF fields parent

/-- Example document for the leaf-coverage witness. -/
def exDoc6 : List (PyKey × Document) :=
  [(.str ['a'], .scalar (.int 1)),
   (.str ['b'], .arr [.scalar (.str ['x']),
                      .obj [(.str ['c'], .scalar (.bool true))]])]

/-! ## Helper lemmas: association lists -/

theorem lookupKey_update_self {k : PyKey} {l : List (PyKey × Document)} {c v : Document}
    (h : lookupKey k l = some c) :
    lookupKey k (updateKey k v l) = some v := by
  induction l with
  | nil => simp [lookupKey] at h
  | cons p t ih =>
    obtain ⟨k', v'⟩ := p
    by_cases hk : k' = k
    · subst hk
      simp [lookupKey, updateKey]
    · simp only [lookupKey, updateKey, if_neg hk] at h ⊢
      exact ih h

theorem lookupKey_update_ne {k k' : PyKey} {l : List (PyKey × Document)} {v : Document}
    (h : k' ≠ k) :
    lookupKey k' (updateKey k v l) = lookupKey k' l := by
  induction l with
  | nil => simp [lookupKey, updateKey]
  | cons p t ih =>
    obtain ⟨k'', v''⟩ := p
    by_cases hk : k'' = k
    · subst hk
      have : k'' ≠ k' := fun hh => h hh.symm
      simp [lookupKey, updateKey, this]
    · simp only [updateKey, if_neg hk, lookupKey]
      by_cases hk2 : k'' = k'
      · simp [hk2]
      · simp [hk2, ih]

theorem updateKey_self {k : PyKey} {l : List (PyKey × Document)} {v : Document}
    (h : lookupKey k l = some v) :
    updateKey k v l = l := by
  induction l with
  | nil => simp [lookupKey] at h
  | cons p t ih =>
    obtain ⟨k', v'⟩ := p
    by_cases hk : k' = k
    · subst hk
      simp [lookupKey] at h
      simp [updateKey, h]
    · simp only [lookupKey, if_neg hk] at h
      simp [updateKey, hk, ih h]

theorem updateKey_updateKey {k : PyKey} {l : List (PyKey × Document)} {a b : Document} :
    updateKey k b (updateKey k a l) = updateKey k b l := by
  induction l with
  | nil => simp [updateKey]
  | cons p t ih =>
    obtain ⟨k', v'⟩ := p
    by_cases hk : k' = k
    · simp [updateKey, hk]
    · simp [updateKey, hk, ih]

theorem lookupKey_append_self {k : PyKey} {l : List (PyKey × Document)} {v : Document}
    (h : lookupKey k l = none) :
    lookupKey k (l ++ [(k, v)]) = some v := by
  induction l with
  | nil => simp [lookupKey]
  | cons p t ih =>
    obtain ⟨k', v'⟩ := p
    by_cases hk : k' = k
    · simp [lookupKey, hk] at h
    · simp only [lookupKey, if_neg hk] at h
      simp [lookupKey, hk, ih h]

theorem lookupKey_append_ne {k k' : PyKey} {l : List (PyKey × Document)} {v : Document}
    (h : k' ≠ k) :
    lookupKey k' (l ++ [(k, v)]) = lookupKey k' l := by
  induction l with
  | nil =>
    have hk : k ≠ k' := fun hh => h hh.symm
    simp [lookupKey, hk]
  | cons p t ih =>
    obtain ⟨k'', v''⟩ := p
    by_cases hk : k'' = k'
    · simp [lookupKey, hk]
    · simp [lookupKey, hk, ih]

theorem updateKey_append_self {k : PyKey} {l : List (PyKey × Document)} {v w : Document}
    (h : lookupKey k l = none) :
    updateKey k v (l ++ [(k, w)]) = l ++ [(k, v)] := by
  induction l with
  | nil => simp [updateKey]
  | cons p t ih =>
    obtain ⟨k', v'⟩ := p
    by_cases hk : k' = k
    · simp [lookupKey, hk] at h
    · simp only [lookupKey, if_neg hk] at h
      simp [updateKey, hk, ih h]

/-- In a duplicate-free dict, membership determines the lookup result. -/
theorem lookupKey_of_mem {k : PyKey} {c : Document} {l : List (PyKey × Document)}
    (hmem : (k, c) ∈ l) (hnd : nodupKeys (l.map Prod.fst)) :
    lookupKey k l = some c := by
  induction l with
  | nil => simp at hmem
  | cons p t ih =>
    obtain ⟨k', v'⟩ := p
    simp only [List.map_cons, nodupKeys, Bool.and_eq_true, List.all_eq_true] at hnd
    rcases List.mem_cons.mp hmem with h | h
    · cases h
      simp [lookupKey]
    · have hk : k' ≠ k := by
        intro hh
        have hmm : k ∈ t.map Prod.fst := List.mem_map.mpr ⟨(k, c), h, rfl⟩
        have hcon := hnd.1 k hmm
        rw [hh] at hcon
        simp at hcon
      simp [lookupKey, hk, ih h hnd.2]

/-! ## Helper lemmas: coercion -/

theorem coerceStr_numeric {s : List Char} {w : PyVal} (h : coerceStr s = some w) :
    pyNumeric (.scalar w) = true := by
  unfold coerceStr at h
  by_cases hd : '.' ∈ s
  · rw [if_pos hd] at h
    cases hp : pyFloatParse s with
    | none => rw [hp] at h; simp at h
    | some q =>
      rw [hp] at h
      simp only [Option.map_some'] at h
      cases h
      rfl
  · rw [if_neg hd] at h
    cases hp : pyIntParse s with
    | none => rw [hp] at h; simp at h
    | some n =>
      rw [hp] at h
      simp only [Option.map_some'] at h
      cases h
      rfl

/-- Writing a value over itself never changes it. -/
theorem coerceValue_self (x : Document) : coerceValue x x = x := by
  cases x with
  | scalar v => cases v <;> rfl
  | obj f => rfl
  | arr e => rfl

/-- Re-coercing the stored result with the same raw value is the identity:
the stored value is what a second identical write would store again. -/
theorem coerceValue_idem (o v : Document) :
    coerceValue (coerceValue o v) v = coerceValue o v := by
  by_cases hn : pyNumeric o = true
  · match v with
    | .scalar (.str s) =>
      cases hc : coerceStr s with
      | some w => simp [coerceValue, hn, hc, coerceStr_numeric hc]
      | none => simp [coerceValue, hn, hc, pyNumeric]
    | .scalar (.int n) => simp [coerceValue, hn, pyNumeric]
    | .scalar (.float q) => simp [coerceValue, hn, pyNumeric]
    | .scalar (.bool b) => simp [coerceValue, hn, pyNumeric]
    | .scalar .none => simp [coerceValue, hn, pyNumeric]
    | .obj f => simp [coerceValue, hn, pyNumeric]
    | .arr e => simp [coerceValue, hn, pyNumeric]
  · have h1 : coerceValue o v = v := by simp [coerceValue, hn]
    rw [h1]
    exact coerceValue_self v

/-! ## Helper lemmas: lists -/

theorem set_self_of_getElem {α : Type _} {l : List α} {i : Nat} (h : i < l.length) :
    l.set i l[i] = l := by
  induction l generalizing i with
  | nil => simp at h
  | cons a t ih =>
    cases i with
    | zero => simp
    | succ j =>
      simp only [List.set_cons_succ, List.getElem_cons_succ, List.cons.injEq, true_and]
      exact ih (by simpa using h)

/-! ## Claim C2: auto-vivification writes to absent leaves -/

/-- C2: the spec claims `setByPath({}, "data.tags.team", "eng")` succeeds and
produces `{"data": {"tags": {"team": "eng"}}}`; the code instead raises
`KeyError` at the final-segment type check `current[last_key]`, because the
freshly created intermediate `{}` does not contain the leaf key.  This run
evaluates the code on the spec's own example. -/
theorem C2_auto_vivification_keyerror :
    set_nested_value (.obj []) (chars "data.tags.team") (pystr "eng") =
      .error .keyError := by rfl

/-! ## Claim C9: intermediate auto-vivification -/

/-- C9: the walk does insert a fresh `[]`/`{}` for a missing intermediate
key, but the write then never completes: a fresh array is empty, so the very
next index access raises `IndexError`, and a fresh object is empty, so the
final-segment read raises `KeyError`. -/
theorem C9_vivified_write_never_completes :
    set_nested_value (.obj []) (chars "a[0].b") (pystr "1") = .error .indexError ∧
    set_nested_value (.obj []) (chars "a.b") (pystr "1") = .error .keyError := by
  exact ⟨rfl, rfl⟩

/-! ## Claim C3 counterexample: boolean leaves are NOT exempt from coercion -/

/-- C3 as stated is false: Python's `bool` is a subclass of `int`, so
`isinstance(True, (int, float))` holds and the raw text `"5"` written onto
the boolean leaf `{"a": true}` is parsed and stored as the integer `5`,
not verbatim. -/
theorem C3_counterexample :
    set_nested_value (.obj [(.str (chars "a"), .scalar (.bool true))]) (chars "a")
        (pystr "5") =
      .ok (.obj [(.str (chars "a"), .scalar (.int 5))]) ∧
    set_nested_value (.obj [(.str (chars "a"), .scalar (.bool true))]) (chars "a")
        (pystr "5") ≠
      .ok (.obj [(.str (chars "a"), pystr "5")]) := by
  refine ⟨rfl, ?_⟩
  intro h
  rw [show set_nested_value (.obj [(.str (chars "a"), .scalar (.bool true))]) (chars "a")
        (pystr "5") =
      .ok (.obj [(.str (chars "a"), .scalar (.int 5))]) from rfl] at h
  simp [pystr] at h

/-! ## Claim C5 counterexample: arrays inside arrays are not recursed into -/

/-- C5 as stated is false: an array element that is itself an array is
emitted as a single `(P[i], element)` entry with the whole sub-array as the
value; no path `a[0][0]` is produced. -/
theorem C5_counterexample :
    flatten_dict [(.str (chars "a"), .arr [.arr [.scalar (.int 1)]])] [] =
      [(chars "a[0]", .arr [.scalar (.int 1)])] ∧
    (chars "a[0][0]", Document.scalar (.int 1)) ∉
      flatten_dict [(.str (chars "a"), .arr [.arr [.scalar (.int 1)]])] [] := by
  have he : flatten_dict [(.str (chars "a"), .arr [.arr [.scalar (.int 1)]])] [] =
      [(chars "a[0]", .arr [.scalar (.int 1)])] := by
    simp [flatten_dict, flattenItems, flattenArr, newKey, idxKey, keyChars, natToChars,
      natToCharsF, pyDict, pyInsert, containsPath, updatePath, chars]
  refine ⟨he, ?_⟩
  intro h
  rw [he] at h
  simp [chars] at h

/-! ## Claim C6 counterexample: entry count vs scalar-leaf count -/

/-- C6 as stated is false: `{"a": [[1, 2]]}` has two scalar leaves but its
flattening has a single entry (the inner array is emitted whole). -/
theorem C6_counterexample :
    (flatten_dict [(.str (chars "a"), .arr [.arr [.scalar (.int 1), .scalar (.int 2)]])]
          []).length = 1 ∧
    countLeaves (.obj [(.str (chars "a"),
        .arr [.arr [.scalar (.int 1), .scalar (.int 2)]])]) = 2 ∧
    (flatten_dict [(.str (chars "a"), .arr [.arr [.scalar (.int 1), .scalar (.int 2)]])]
          []).length ≠
      countLeaves (.obj [(.str (chars "a"),
        .arr [.arr [.scalar (.int 1), .scalar (.int 2)]])]) := by
  have h1 : (flatten_dict [(.str (chars "a"),
        .arr [.arr [.scalar (.int 1), .scalar (.int 2)]])] []).length = 1 := by
    simp [flatten_dict, flattenItems, flattenArr, newKey, idxKey, keyChars, natToChars,
      natToCharsF, pyDict, pyInsert, containsPath, updatePath, chars]
  have h2 : countLeaves (.obj [(.str (chars "a"),
      .arr [.arr [.scalar (.int 1), .scalar (.int 2)]])]) = 2 := by
    simp [countLeaves, countLeavesFl, countLeavesEl]
  refine ⟨h1, h2, ?_⟩
  intro h
  rw [h1, h2] at h
  simp at h

/-! ## Claim C1 counterexample: round-trip fails on digit-string keys -/

/-- C1 as stated is false: for `{"0": 5}` the flattening yields the path
`"0"`, whose re-application converts the segment to the integer key `0`;
the dict holds the string key `"0"`, so the read `current[last_key]` raises
`KeyError` and the round-trip does not return the document. -/
theorem C1_counterexample :
    applyAll (.obj [(.str (chars "0"), .scalar (.int 5))])
        (flatten_dict [(.str (chars "0"), .scalar (.int 5))] []) =
      .error .keyError ∧
    applyAll (.obj [(.str (chars "0"), .scalar (.int 5))])
        (flatten_dict [(.str (chars "0"), .scalar (.int 5))] []) ≠
      .ok (.obj [(.str (chars "0"), .scalar (.int 5))]) := by
  have he : flatten_dict [(.str (chars "0"), .scalar (.int 5))] [] =
      [(chars "0", .scalar (.int 5))] := by
    simp [flatten_dict, flattenItems, flattenArr, newKey, idxKey, keyChars, natToChars,
      natToCharsF, pyDict, pyInsert, containsPath, updatePath, chars]
  have hrun : applyAll (.obj [(.str (chars "0"), .scalar (.int 5))])
      (flatten_dict [(.str (chars "0"), .scalar (.int 5))] []) = .error .keyError := by
    rw [he]
    rfl
  refine ⟨hrun, ?_⟩
  intro h
  rw [hrun] at h
  exact Except.noConfusion h

/-! ## Claim C7: `get_nested_value` failure semantics -/

theorem keyedGet_append (d : Document) (l1 l2 : List PyKey) :
    keyedGet d (l1 ++ l2) = (keyedGet d l1).bind (fun n => keyedGet n l2) := by
  induction l1 generalizing d with
  | nil => simp [keyedGet, Except.bind]
  | cons k t ih =>
    simp only [List.cons_append, keyedGet]
    cases get1 d k with
    | error e => simp [Except.bind]
    | ok c => simp [Except.bind, ih]

theorem strKeyed_lookup_int {fields : List (PyKey × Document)} {i : Nat}
    (h : strKeyed fields = true) : lookupKey (.int i) fields = none := by
  induction fields with
  | nil => rfl
  | cons p t ih =>
    obtain ⟨k, v⟩ := p
    simp only [strKeyed, List.all_cons, Bool.and_eq_true] at h
    cases k with
    | str s => simp [lookupKey, ih (by simpa [strKeyed] using h.2)]
    | int j => simp at h

/-- A bad segment makes the single step fail. -/
theorem get1_badSegment {n : Document} {k : List Char} (hb : badSegment n k) :
    ∃ e, get1 n (effKey k) = .error e := by
  rcases hb with ⟨fields, rfl, hd, hl⟩ | ⟨elems, rfl, hd, hlen⟩ |
    ⟨elems, rfl, hd⟩ | ⟨fields, rfl, hd, hs⟩
  · exact ⟨.keyError, by simp [get1, effKey, hd, hl]⟩
  · refine ⟨.indexError, ?_⟩
    simp only [effKey, hd, if_true, get1]
    rw [dif_neg (by omega)]
  · exact ⟨.typeError, by simp [get1, effKey, hd]⟩
  · exact ⟨.keyError, by simp [get1, effKey, hd, strKeyed_lookup_int hs]⟩

/-- C7: `get_nested_value` fails with an exception whenever any segment of
the parsed path is absent from an object, out of range for an array, or
applied against a node of the wrong kind (key segment on an array, index
segment on a string-keyed object); in particular
`get_nested_value({"a": 1}, "b")` raises `KeyError`. -/
theorem C7_get_failure_semantics :
    get_nested_value (.obj [(.str (chars "a"), .scalar (.int 1))]) (chars "b") =
      .error .keyError ∧
    ∀ (d n : Document) (pre : List (List Char)) (k : List Char) (post : List (List Char)),
      keyedGet d (pre.map effKey) = .ok n →
      badSegment n k →
      ∃ e, keyedGet d (((pre ++ k :: post)).map effKey) = .error e := by
  constructor
  · rfl
  · intro d n pre k post hw hb
    obtain ⟨e, he⟩ := get1_badSegment hb
    refine ⟨e, ?_⟩
    rw [List.map_append, keyedGet_append, hw]
    simp only [Except.bind, List.map_cons, keyedGet, he, Except.bind]

/-- Witness for C7: at the concrete document `{"a": 1}` the missing key `"b"`
is a bad segment at the root, and the walk indeed fails. -/
theorem C7_witness :
    ∃ e, keyedGet (.obj [(.str (chars "a"), .scalar (.int 1))])
      ((([] ++ chars "b" :: []) : List (List Char)).map effKey) = .error e :=
  C7_get_failure_semantics.2 (.obj [(.str (chars "a"), .scalar (.int 1))])
    (.obj [(.str (chars "a"), .scalar (.int 1))]) [] (chars "b") []
    rfl
    (Or.inl ⟨[(.str (chars "a"), .scalar (.int 1))], rfl, by decide, rfl⟩)

/-! ## Claim C8: idempotence of `set_nested_value` -/

theorem setLast_scalar_err {sv : PyVal} {last : List Char} {v d' : Document}
    (h : setLast (.scalar sv) last v = .ok d') : False := by
  cases sv with
  | str s =>
    rw [setLast] at h
    split at h
    · split at h <;> simp at h
    · simp at h
  | int n => simp [setLast] at h
  | float q => simp [setLast] at h
  | bool b => simp [setLast] at h
  | none => simp [setLast] at h

/-- A successful final write is idempotent. -/
theorem setLast_idem {d d' : Document} {last : List Char} {v : Document}
    (h : setLast d last v = .ok d') : setLast d' last v = .ok d' := by
  cases d with
  | obj fields =>
    cases hl : lookupKey (effKey last) fields with
    | none => rw [setLast, hl] at h; simp at h
    | some old =>
      rw [setLast, hl] at h
      simp only [Except.ok.injEq] at h
      subst h
      have hl2 : lookupKey (effKey last)
          (updateKey (effKey last) (coerceValue old v) fields) =
            some (coerceValue old v) := lookupKey_update_self hl
      simp only [setLast, hl2, coerceValue_idem, updateKey_updateKey]
  | arr elems =>
    by_cases hd : pyIsdigit last
    · rw [setLast, if_pos hd] at h
      split at h
      next hlen =>
        simp only [Except.ok.injEq] at h
        subst h
        rw [setLast, if_pos hd]
        have hlen2 : digitsToNat last <
            (elems.set (digitsToNat last) (coerceValue elems[digitsToNat last] v)).length := by
          simpa using hlen
        rw [dif_pos hlen2]
        rw [List.getElem_set_self hlen2, coerceValue_idem, List.set_set]
      next => simp at h
    · rw [setLast, if_neg hd] at h
      simp at h
  | scalar sv => exact absurd h setLast_scalar_err

/-- A successful walk-and-write is idempotent. -/
theorem setKeys_idem : ∀ (segs : List (List Char)) (d d' v : Document),
    setKeys d segs v = .ok d' → setKeys d' segs v = .ok d'
  | [], _, _, _, h => by simp [setKeys] at h
  | [last], d, d', v, h => setLast_idem h
  | k :: next :: rest, d, d', v, h => by
    cases d with
    | scalar sv => simp [setKeys] at h
    | arr elems =>
      rw [setKeys] at h
      by_cases hd : pyIsdigit k
      · rw [if_pos hd] at h
        split at h
        next hlen =>
          cases hs : setKeys elems[digitsToNat k] (next :: rest) v with
          | error e => rw [hs] at h; simp [Except.map] at h
          | ok r =>
            rw [hs] at h
            simp only [Except.map, Except.ok.injEq] at h
            subst h
            have ih := setKeys_idem (next :: rest) _ _ v hs
            rw [setKeys, if_pos hd]
            have hlen2 : digitsToNat k < (elems.set (digitsToNat k) r).length := by
              simpa using hlen
            rw [dif_pos hlen2, List.getElem_set_self hlen2, ih]
            simp [Except.map, List.set_set]
        next => simp at h
      · rw [if_neg hd] at h
        simp at h
    | obj fields =>
      cases hl : lookupKey (effKey k) fields with
      | some child =>
        simp only [setKeys, hl] at h
        cases hs : setKeys child (next :: rest) v with
        | error e => rw [hs] at h; simp [Except.map] at h
        | ok r =>
          rw [hs] at h
          simp only [Except.map, Except.ok.injEq] at h
          subst h
          have ih := setKeys_idem (next :: rest) _ _ v hs
          simp only [setKeys, lookupKey_update_self hl, ih]
          simp [Except.map, updateKey_updateKey]
      | none =>
        simp only [setKeys, hl] at h
        cases hs : setKeys (if pyIsdigit next then Document.arr [] else Document.obj [])
            (next :: rest) v with
        | error e => rw [hs] at h; simp [Except.map] at h
        | ok r =>
          rw [hs] at h
          simp only [Except.map, Except.ok.injEq] at h
          subst h
          have ih := setKeys_idem (next :: rest) _ _ v hs
          simp only [setKeys, lookupKey_append_self hl, ih]
          simp [Except.map, updateKey_append_self hl]

/-- C8: applying the same successful `set_nested_value(doc, path, value)`
twice produces the same document as applying it once. -/
theorem C8_set_idempotent (d d' : Document) (path : List Char) (v : Document)
    (h : set_nested_value d path v = .ok d') :
    set_nested_value d' path v = .ok d' := by
  rw [set_nested_value] at h ⊢
  cases hp : parseKeys path with
  | nil => rw [hp] at h; simp at h
  | cons k rest =>
    rw [hp] at h
    exact setKeys_idem (k :: rest) d d' v h

/-- Witness for C8 at `{"a": 1}`, path `"a"`, raw value `"2"`: the write
stores the integer `2` and a second identical write is a no-op. -/
theorem C8_witness :
    set_nested_value (.obj [(.str (chars "a"), .scalar (.int 2))]) (chars "a")
        (pystr "2") =
      .ok (.obj [(.str (chars "a"), .scalar (.int 2))]) :=
  C8_set_idempotent (.obj [(.str (chars "a"), .scalar (.int 1))])
    (.obj [(.str (chars "a"), .scalar (.int 2))]) (chars "a") (pystr "2") rfl

/-! ## Walk lemmas relating `setKeys` to tree positions -/

theorem treeGet_scalar_cons {sv : PyVal} {k : List PyKey} (h : k ≠ []) :
    treeGet (.scalar sv) k = none := by
  cases k with
  | nil => exact absurd rfl h
  | cons a t => rfl

theorem treeGet_obj_cons (fields : List (PyKey × Document)) (k : PyKey)
    (rest : List PyKey) :
    treeGet (.obj fields) (k :: rest) =
      (lookupKey k fields).bind (fun c => treeGet c rest) := by
  rw [treeGet]

theorem treeGet_arr_int (elems : List Document) (i : Nat) (rest : List PyKey) :
    treeGet (.arr elems) (.int i :: rest) =
      if h : i < elems.length then treeGet elems[i] rest else none := rfl

/-- If the path addresses an existing scalar leaf (as a tree position), the
write succeeds. -/
theorem setKeys_succeeds : ∀ (segs : List (List Char)) (d v : Document) (w : PyVal),
    treeGet d (segs.map effKey) = some (.scalar w) →
    segs ≠ [] →
    ∃ d', setKeys d segs v = .ok d'
  | [], _, _, _, _, hne => absurd rfl hne
  | [last], d, v, w, htg, _ => by
    cases d with
    | scalar sv =>
      rw [treeGet_scalar_cons (by simp)] at htg
      exact absurd htg (by simp)
    | obj fields =>
      cases hl : lookupKey (effKey last) fields with
      | none => simp [treeGet, hl, Option.bind] at htg
      | some old =>
        refine ⟨.obj (updateKey (effKey last) (coerceValue old v) fields), ?_⟩
        show setLast (.obj fields) last v = _
        rw [setLast, hl]
    | arr elems =>
      by_cases hd : pyIsdigit last
      · simp only [List.map_cons, List.map_nil, treeGet, effKey, hd, if_true] at htg
        split at htg
        next hlen =>
          refine ⟨.arr (elems.set (digitsToNat last)
            (coerceValue elems[digitsToNat last] v)), ?_⟩
          show setLast (.arr elems) last v = _
          rw [setLast, if_pos hd, dif_pos hlen]
        next => simp at htg
      · simp [treeGet, effKey, hd] at htg
  | k :: next :: rest, d, v, w, htg, _ => by
    cases d with
    | scalar sv =>
      rw [treeGet_scalar_cons (by simp)] at htg
      exact absurd htg (by simp)
    | obj fields =>
      cases hl : lookupKey (effKey k) fields with
      | none => simp [treeGet, hl, Option.bind] at htg
      | some child =>
        simp only [List.map_cons, treeGet, hl, Option.bind] at htg
        obtain ⟨r, hr⟩ := setKeys_succeeds (next :: rest) child v w htg (by simp)
        refine ⟨.obj (updateKey (effKey k) r fields), ?_⟩
        simp [setKeys, hl, hr, Except.map]
    | arr elems =>
      by_cases hd : pyIsdigit k
      · simp only [List.map_cons, treeGet, effKey, hd, if_true] at htg
        split at htg
        next hlen =>
          obtain ⟨r, hr⟩ := setKeys_succeeds (next :: rest) elems[digitsToNat k] v w htg
            (by simp)
          refine ⟨.arr (elems.set (digitsToNat k) r), ?_⟩
          rw [setKeys, if_pos hd, dif_pos hlen, hr]
          rfl
        next => simp at htg
      · simp [treeGet, effKey, hd] at htg

/-- After a successful write, the addressed tree position holds the coerced
value. -/
theorem setKeys_readback : ∀ (segs : List (List Char)) (d d' v old : Document),
    setKeys d segs v = .ok d' →
    treeGet d (segs.map effKey) = some old →
    treeGet d' (segs.map effKey) = some (coerceValue old v)
  | [], _, _, _, _, h, _ => by simp [setKeys] at h
  | [last], d, d', v, old, h, htg => by
    replace h : setLast d last v = .ok d' := h
    cases d with
    | scalar sv => exact absurd h setLast_scalar_err
    | obj fields =>
      cases hl : lookupKey (effKey last) fields with
      | none => simp [treeGet, hl, Option.bind] at htg
      | some c =>
        simp only [List.map_cons, List.map_nil, treeGet, hl, Option.bind,
          Option.some.injEq] at htg
        subst htg
        rw [setLast, hl] at h
        simp only [Except.ok.injEq] at h
        subst h
        simp [treeGet, lookupKey_update_self hl, Option.bind]
    | arr elems =>
      by_cases hd : pyIsdigit last
      · rw [setLast, if_pos hd] at h
        split at h
        next hlen =>
          simp only [Except.ok.injEq] at h
          subst h
          simp only [List.map_cons, List.map_nil, treeGet, effKey, hd, if_true,
            dif_pos hlen, Option.some.injEq] at htg
          subst htg
          have hlen2 : digitsToNat last <
              (elems.set (digitsToNat last)
                (coerceValue elems[digitsToNat last] v)).length := by simpa using hlen
          have he : effKey last = .int (digitsToNat last) := by simp [effKey, hd]
          rw [List.map_cons, List.map_nil, he, treeGet_arr_int, dif_pos hlen2,
            List.getElem_set_self hlen2]
          rfl
        next => simp at h
      · rw [setLast, if_neg hd] at h
        simp at h
  | k :: next :: rest, d, d', v, old, h, htg => by
    cases d with
    | scalar sv => simp [setKeys] at h
    | obj fields =>
      cases hl : lookupKey (effKey k) fields with
      | none => simp [treeGet, hl, Option.bind] at htg
      | some child =>
        simp only [setKeys, hl] at h
        cases hs : setKeys child (next :: rest) v with
        | error e => rw [hs] at h; simp [Except.map] at h
        | ok r =>
          rw [hs] at h
          simp only [Except.map, Except.ok.injEq] at h
          subst h
          simp only [List.map_cons, treeGet, hl, Option.bind] at htg
          have ih := setKeys_readback (next :: rest) child r v old hs htg
          rw [List.map_cons, treeGet_obj_cons, lookupKey_update_self hl]
          simpa using ih
    | arr elems =>
      by_cases hd : pyIsdigit k
      · rw [setKeys, if_pos hd] at h
        split at h
        next hlen =>
          cases hs : setKeys elems[digitsToNat k] (next :: rest) v with
          | error e => rw [hs] at h; simp [Except.map] at h
          | ok r =>
            rw [hs] at h
            simp only [Except.map, Except.ok.injEq] at h
            subst h
            simp only [List.map_cons, treeGet, effKey, hd, if_true, dif_pos hlen] at htg
            have ih := setKeys_readback (next :: rest) elems[digitsToNat k] r v old hs htg
            have hlen2 : digitsToNat k < (elems.set (digitsToNat k) r).length := by
              simpa using hlen
            have he : effKey k = .int (digitsToNat k) := by simp [effKey, hd]
            rw [List.map_cons, he, treeGet_arr_int, dif_pos hlen2,
              List.getElem_set_self hlen2]
            exact ih
        next => simp at h
      · rw [setKeys, if_neg hd] at h
        simp at h

/-- Frame property of a successful write addressing a scalar leaf: every
other tree position that reads as a scalar leaf is unchanged. -/
theorem setKeys_frame : ∀ (segs : List (List Char)) (d d' v : Document) (w : PyVal),
    setKeys d segs v = .ok d' →
    treeGet d (segs.map effKey) = some (.scalar w) →
    ∀ q : List PyKey, q ≠ segs.map effKey →
      (∃ u, treeGet d q = some (.scalar u)) →
      treeGet d' q = treeGet d q
  | [], _, _, _, _, h, _ => by simp [setKeys] at h
  | [last], d, d', v, w, h, htg => by
    replace h : setLast d last v = .ok d' := h
    cases d with
    | scalar sv => exact absurd h setLast_scalar_err
    | obj fields =>
      cases hl : lookupKey (effKey last) fields with
      | none =>
        rw [List.map_cons, List.map_nil, treeGet_obj_cons, hl] at htg
        simp at htg
      | some old =>
        rw [setLast, hl] at h
        simp only [Except.ok.injEq] at h
        subst h
        rw [List.map_cons, List.map_nil, treeGet_obj_cons, hl] at htg
        simp only [Option.bind, treeGet, Option.some.injEq] at htg
        subst htg
        intro q hqne hqleaf
        cases q with
        | nil =>
          obtain ⟨u, hu⟩ := hqleaf
          simp [treeGet] at hu
        | cons qk q2 =>
          by_cases hqk : qk = effKey last
          · subst hqk
            have hq2 : q2 ≠ [] := by
              intro h0
              subst h0
              exact hqne (by simp)
            obtain ⟨u, hu⟩ := hqleaf
            rw [treeGet_obj_cons, hl] at hu
            simp only [Option.bind] at hu
            rw [treeGet_scalar_cons hq2] at hu
            exact absurd hu (by simp)
          · rw [treeGet_obj_cons, treeGet_obj_cons, lookupKey_update_ne hqk]
    | arr elems =>
      by_cases hd : pyIsdigit last
      · rw [setLast, if_pos hd] at h
        split at h
        next hlen =>
          simp only [Except.ok.injEq] at h
          subst h
          have he : effKey last = .int (digitsToNat last) := by simp [effKey, hd]
          rw [List.map_cons, List.map_nil, he, treeGet_arr_int, dif_pos hlen] at htg
          simp only [treeGet, Option.some.injEq] at htg
          intro q hqne hqleaf
          cases q with
          | nil =>
            obtain ⟨u, hu⟩ := hqleaf
            simp [treeGet] at hu
          | cons qk q2 =>
            cases qk with
            | str s2 =>
              obtain ⟨u, hu⟩ := hqleaf
              simp [treeGet] at hu
            | int j =>
              by_cases hji : j = digitsToNat last
              · subst hji
                have hq2 : q2 ≠ [] := by
                  intro h0
                  subst h0
                  exact hqne (by simp [he])
                obtain ⟨u, hu⟩ := hqleaf
                rw [treeGet_arr_int, dif_pos hlen, htg, treeGet_scalar_cons hq2] at hu
                exact absurd hu (by simp)
              · rw [treeGet_arr_int, treeGet_arr_int]
                by_cases hjl : j < elems.length
                · rw [dif_pos (by simpa using hjl), dif_pos hjl]
                  congr 1
                  exact List.getElem_set_ne (fun hh => hji hh.symm) (by simpa using hjl)
                · rw [dif_neg (by simpa using hjl), dif_neg hjl]
        next => simp at h
      · rw [setLast, if_neg hd] at h
        simp at h
  | k :: next :: rest, d, d', v, w, h, htg => by
    cases d with
    | scalar sv => simp [setKeys] at h
    | obj fields =>
      cases hl : lookupKey (effKey k) fields with
      | none =>
        rw [List.map_cons, treeGet_obj_cons, hl] at htg
        simp at htg
      | some child =>
        simp only [setKeys, hl] at h
        cases hs : setKeys child (next :: rest) v with
        | error e => rw [hs] at h; simp [Except.map] at h
        | ok r =>
          rw [hs] at h
          simp only [Except.map, Except.ok.injEq] at h
          subst h
          rw [List.map_cons, treeGet_obj_cons, hl] at htg
          simp only [Option.bind] at htg
          intro q hqne hqleaf
          cases q with
          | nil =>
            obtain ⟨u, hu⟩ := hqleaf
            simp [treeGet] at hu
          | cons qk q2 =>
            by_cases hqk : qk = effKey k
            · subst hqk
              have hq2 : q2 ≠ (next :: rest).map effKey := by
                intro h0
                subst h0
                exact hqne (by simp)
              have hq2leaf : ∃ u, treeGet child q2 = some (.scalar u) := by
                obtain ⟨u, hu⟩ := hqleaf
                rw [treeGet_obj_cons, hl] at hu
                simp only [Option.bind] at hu
                exact ⟨u, hu⟩
              have ih := setKeys_frame (next :: rest) child r v w hs htg q2 hq2 hq2leaf
              rw [treeGet_obj_cons, treeGet_obj_cons, lookupKey_update_self hl, hl]
              simpa using ih
            · rw [treeGet_obj_cons, treeGet_obj_cons, lookupKey_update_ne hqk]
    | arr elems =>
      by_cases hd : pyIsdigit k
      · rw [setKeys, if_pos hd] at h
        split at h
        next hlen =>
          cases hs : setKeys elems[digitsToNat k] (next :: rest) v with
          | error e => rw [hs] at h; simp [Except.map] at h
          | ok r =>
            rw [hs] at h
            simp only [Except.map, Except.ok.injEq] at h
            subst h
            have he : effKey k = .int (digitsToNat k) := by simp [effKey, hd]
            rw [List.map_cons, he, treeGet_arr_int, dif_pos hlen] at htg
            intro q hqne hqleaf
            cases q with
            | nil =>
              obtain ⟨u, hu⟩ := hqleaf
              simp [treeGet] at hu
            | cons qk q2 =>
              cases qk with
              | str s2 =>
                obtain ⟨u, hu⟩ := hqleaf
                simp [treeGet] at hu
              | int j =>
                by_cases hji : j = digitsToNat k
                · subst hji
                  have hq2 : q2 ≠ (next :: rest).map effKey := by
                    intro h0
                    subst h0
                    exact hqne (by simp [he])
                  have hq2leaf : ∃ u, treeGet elems[digitsToNat k] q2 = some (.scalar u) := by
                    obtain ⟨u, hu⟩ := hqleaf
                    rw [treeGet_arr_int, dif_pos hlen] at hu
                    exact ⟨u, hu⟩
                  have ih := setKeys_frame (next :: rest) elems[digitsToNat k] r v w hs
                    htg q2 hq2 hq2leaf
                  have hlen2 : digitsToNat k < (elems.set (digitsToNat k) r).length := by
                    simpa using hlen
                  rw [treeGet_arr_int, treeGet_arr_int, dif_pos hlen2, dif_pos hlen,
                    List.getElem_set_self hlen2]
                  exact ih
                · rw [treeGet_arr_int, treeGet_arr_int]
                  by_cases hjl : j < elems.length
                  · rw [dif_pos (by simpa using hjl), dif_pos hjl]
                    congr 1
                    exact List.getElem_set_ne (fun hh => hji hh.symm) (by simpa using hjl)
                  · rw [dif_neg (by simpa using hjl), dif_neg hjl]
        next => simp at h
      · rw [setKeys, if_neg hd] at h
        simp at h

/-! ## Claim C10: frame property of `set_nested_value` -/

/-- C10: when `set_nested_value` succeeds and the path addresses a scalar
leaf, every other tree position holding a scalar leaf keeps exactly its
previous value (and on success no intermediate container is ever created,
so nothing else changes either). -/
theorem C10_frame_property (d d' v : Document) (path : List Char) (w : PyVal)
    (hset : set_nested_value d path v = .ok d')
    (hleaf : treeGet d (effKeys path) = some (.scalar w)) :
    ∀ q : List PyKey, q ≠ effKeys path →
      (∃ u, treeGet d q = some (.scalar u)) →
      treeGet d' q = treeGet d q := by
  intro q hq hql
  rw [set_nested_value] at hset
  cases hp : parseKeys path with
  | nil => rw [hp] at hset; simp at hset
  | cons k rest =>
    rw [hp] at hset
    have heff : effKeys path = (k :: rest).map effKey := by rw [effKeys, hp]
    rw [heff] at hleaf hq
    exact setKeys_frame (k :: rest) d d' v w hset hleaf q hq hql

/-- Witness for C10: writing `"9"` over `a` in `{"a": 1, "b": 2}` leaves the
leaf `b` untouched. -/
theorem C10_witness :
    treeGet (.obj [(.str (chars "a"), .scalar (.int 9)),
        (.str (chars "b"), .scalar (.int 2))]) [.str (chars "b")] =
      treeGet (.obj [(.str (chars "a"), .scalar (.int 1)),
        (.str (chars "b"), .scalar (.int 2))]) [.str (chars "b")] :=
  C10_frame_property
    (.obj [(.str (chars "a"), .scalar (.int 1)), (.str (chars "b"), .scalar (.int 2))])
    (.obj [(.str (chars "a"), .scalar (.int 9)), (.str (chars "b"), .scalar (.int 2))])
    (pystr "9") (chars "a") (.int 1) rfl rfl [.str (chars "b")] (by decide)
    ⟨.int 2, rfl⟩

/-! ## Claim C4: numeric coercion with silent fallback -/

/-- C4: when the leaf addressed by the path currently holds a numeric value
(`int` or `float`), a write of raw text succeeds and stores
`float(text)` if the text contains `'.'`, else `int(text)`, falling back to
the raw text itself when the parse fails (no exception). -/
theorem C4_numeric_coercion_with_fallback (d : Document) (path : List Char)
    (s : List Char)
    (hne : parseKeys path ≠ [])
    (hleaf : (∃ n : Int, treeGet d (effKeys path) = some (.scalar (.int n))) ∨
             (∃ q : ℚ, treeGet d (effKeys path) = some (.scalar (.float q)))) :
    ∃ d', set_nested_value d path (.scalar (.str s)) = .ok d' ∧
      treeGet d' (effKeys path) =
        some (match coerceStr s with
              | some w => .scalar w
              | none => .scalar (.str s)) := by
  cases hp : parseKeys path with
  | nil => exact absurd hp hne
  | cons k rest =>
    have heff : effKeys path = (k :: rest).map effKey := by rw [effKeys, hp]
    have hcv : ∀ w₀ : PyVal, pyNumeric (.scalar w₀) = true →
        coerceValue (.scalar w₀) (.scalar (.str s)) =
          (match coerceStr s with
           | some w => .scalar w
           | none => .scalar (.str s)) := by
      intro w₀ hw
      cases hc : coerceStr s <;> simp [coerceValue, hw, hc]
    rcases hleaf with ⟨n, hx⟩ | ⟨qq, hx⟩ <;> rw [heff] at hx
    · obtain ⟨d', hd'⟩ := setKeys_succeeds (k :: rest) d (.scalar (.str s)) (.int n) hx
        (by simp)
      refine ⟨d', ?_, ?_⟩
      · rw [set_nested_value, hp]
        exact hd'
      · rw [heff]
        rw [setKeys_readback (k :: rest) d d' (.scalar (.str s)) (.scalar (.int n)) hd' hx]
        rw [hcv (.int n) rfl]
    · obtain ⟨d', hd'⟩ := setKeys_succeeds (k :: rest) d (.scalar (.str s)) (.float qq) hx
        (by simp)
      refine ⟨d', ?_, ?_⟩
      · rw [set_nested_value, hp]
        exact hd'
      · rw [heff]
        rw [setKeys_readback (k :: rest) d d' (.scalar (.str s)) (.scalar (.float qq))
          hd' hx]
        rw [hcv (.float qq) rfl]

/-- Witness for C4 on the spec's example: writing `"3.5"` to
`data.meters[0].quantity` stores the float `3.5`, writing `"abc"` stores the
raw string `"abc"`, and neither write raises. -/
theorem C4_witness :
    (∃ d', set_nested_value metersDoc (chars "data.meters[0].quantity")
        (.scalar (.str (chars "3.5"))) = .ok d' ∧
      treeGet d' (effKeys (chars "data.meters[0].quantity")) =
        some (.scalar (.float (7 / 2)))) ∧
    (∃ d', set_nested_value metersDoc (chars "data.meters[0].quantity")
        (.scalar (.str (chars "abc"))) = .ok d' ∧
      treeGet d' (effKeys (chars "data.meters[0].quantity")) =
        some (.scalar (.str (chars "abc")))) := by
  constructor
  · obtain ⟨d', h1, h2⟩ := C4_numeric_coercion_with_fallback metersDoc
      (chars "data.meters[0].quantity") (chars "3.5") (by decide) (Or.inl ⟨10, rfl⟩)
    refine ⟨d', h1, ?_⟩
    rw [h2]
    have hcs : coerceStr (chars "3.5") = some (.float (7 / 2)) := by
      simp [coerceStr, chars, pyFloatParse, pyUnsignedFloat, stripSpaces, digitsToNat,
        digitVal]
      norm_num
    rw [hcs]
  · obtain ⟨d', h1, h2⟩ := C4_numeric_coercion_with_fallback metersDoc
      (chars "data.meters[0].quantity") (chars "abc") (by decide) (Or.inl ⟨10, rfl⟩)
    refine ⟨d', h1, ?_⟩
    rw [h2]
    rfl

/-! ## Claim C3 (amended): boolean leaves are coerced, string leaves verbatim -/

/-- C3 amended: a leaf currently holding a boolean is subject to the same
numeric coercion as an `int`/`float` leaf (Python's `bool` is an `int`
subtype): digits are parsed and stored as numbers, only a failed parse
stores the raw text; a leaf currently holding a string receives the raw
text verbatim with no parse attempt. -/
theorem C3_amended_bool_coerced_string_verbatim (d : Document) (path : List Char)
    (s : List Char) (hne : parseKeys path ≠ []) :
    (∀ b : Bool, treeGet d (effKeys path) = some (.scalar (.bool b)) →
      ∃ d', set_nested_value d path (.scalar (.str s)) = .ok d' ∧
        treeGet d' (effKeys path) =
          some (match coerceStr s with
                | some w => .scalar w
                | none => .scalar (.str s))) ∧
    (∀ t : List Char, treeGet d (effKeys path) = some (.scalar (.str t)) →
      ∃ d', set_nested_value d path (.scalar (.str s)) = .ok d' ∧
        treeGet d' (effKeys path) = some (.scalar (.str s))) := by
  cases hp : parseKeys path with
  | nil => exact absurd hp hne
  | cons k rest =>
    have heff : effKeys path = (k :: rest).map effKey := by rw [effKeys, hp]
    constructor
    · intro b hx
      rw [heff] at hx
      obtain ⟨d', hd'⟩ := setKeys_succeeds (k :: rest) d (.scalar (.str s)) (.bool b) hx
        (by simp)
      refine ⟨d', ?_, ?_⟩
      · rw [set_nested_value, hp]
        exact hd'
      · rw [heff]
        rw [setKeys_readback (k :: rest) d d' (.scalar (.str s)) (.scalar (.bool b))
          hd' hx]
        cases hc : coerceStr s <;> simp [coerceValue, pyNumeric, hc]
    · intro t hx
      rw [heff] at hx
      obtain ⟨d', hd'⟩ := setKeys_succeeds (k :: rest) d (.scalar (.str s)) (.str t) hx
        (by simp)
      refine ⟨d', ?_, ?_⟩
      · rw [set_nested_value, hp]
        exact hd'
      · rw [heff]
        rw [setKeys_readback (k :: rest) d d' (.scalar (.str s)) (.scalar (.str t))
          hd' hx]
        simp [coerceValue, pyNumeric]

/-- Witness for the amended C3: on `{"a": true}` the raw text `"5"` is
stored as the integer `5`; on `{"a": "x"}` it is stored verbatim. -/
theorem C3_witness :
    (∃ d', set_nested_value (.obj [(.str (chars "a"), .scalar (.bool true))])
        (chars "a") (.scalar (.str (chars "5"))) = .ok d' ∧
      treeGet d' (effKeys (chars "a")) = some (.scalar (.int 5))) ∧
    (∃ d', set_nested_value (.obj [(.str (chars "a"), pystr "x")])
        (chars "a") (.scalar (.str (chars "5"))) = .ok d' ∧
      treeGet d' (effKeys (chars "a")) = some (.scalar (.str (chars "5")))) :=
  ⟨(C3_amended_bool_coerced_string_verbatim
      (.obj [(.str (chars "a"), .scalar (.bool true))]) (chars "a") (chars "5")
      (by decide)).1 true rfl,
   (C3_amended_bool_coerced_string_verbatim
      (.obj [(.str (chars "a"), pystr "x")]) (chars "a") (chars "5")
      (by decide)).2 (chars "x") rfl⟩

/-! ## Decimal rendering lemmas -/

theorem natToCharsF_irrel : ∀ (f1 f2 n : Nat), n < f1 → n < f2 →
    natToCharsF f1 n = natToCharsF f2 n
  | f1 + 1, f2 + 1, n, _, _ => by
    rw [natToCharsF, natToCharsF]
    by_cases hn : n < 10
    · simp [hn]
    · simp only [hn, if_false]
      have hd : n / 10 < n := Nat.div_lt_self (by omega) (by omega)
      rw [natToCharsF_irrel f1 f2 (n / 10) (by omega) (by omega)]
  | 0, _, n, h1, _ => absurd h1 (by omega)
  | _ + 1, 0, n, _, h2 => absurd h2 (by omega)

/-- The natural recursion equation of `natToChars`. -/
theorem natToChars_eq (n : Nat) :
    natToChars n = if n < 10 then [Char.ofNat (48 + n)]
      else natToChars (n / 10) ++ [Char.ofNat (48 + n % 10)] := by
  rw [natToChars, natToCharsF]
  by_cases hn : n < 10
  · simp [hn]
  · simp only [hn, if_false]
    have hd : n / 10 < n := Nat.div_lt_self (by omega) (by omega)
    rw [natToChars, natToCharsF_irrel n (n / 10 + 1) (n / 10) (by omega) (by omega)]

theorem isDigit_ofNat {d : Nat} (h : d < 10) : (Char.ofNat (48 + d)).isDigit = true := by
  interval_cases d <;> decide

theorem digitVal_ofNat {d : Nat} (h : d < 10) : digitVal (Char.ofNat (48 + d)) = d := by
  interval_cases d <;> decide

theorem isDigit_ne_dot {c : Char} (h : c.isDigit = true) : c ≠ '.' := by
  intro hh
  rw [hh] at h
  exact absurd h (by decide)

theorem isDigit_ne_lbracket {c : Char} (h : c.isDigit = true) : c ≠ '[' := by
  intro hh
  rw [hh] at h
  exact absurd h (by decide)

theorem isDigit_ne_rbracket {c : Char} (h : c.isDigit = true) : c ≠ ']' := by
  intro hh
  rw [hh] at h
  exact absurd h (by decide)

theorem pyIsdigit_natToChars (n : Nat) : pyIsdigit (natToChars n) = true := by
  induction n using Nat.strong_induction_on with
  | _ n ih =>
    rw [natToChars_eq]
    by_cases hn : n < 10
    · simp [hn, pyIsdigit, isDigit_ofNat hn]
    · have hd : n / 10 < n := Nat.div_lt_self (by omega) (by omega)
      have ihd := ih (n / 10) hd
      simp only [pyIsdigit, Bool.and_eq_true, Bool.not_eq_true', List.isEmpty_eq_false,
        List.all_eq_true] at ihd
      simp only [hn, if_false, pyIsdigit, Bool.and_eq_true, Bool.not_eq_true',
        List.isEmpty_eq_false, List.all_eq_true]
      constructor
      · simp
      · intro c hc
        rcases List.mem_append.mp hc with hc | hc
        · exact ihd.2 c hc
        · rcases List.mem_singleton.mp hc with rfl
          exact isDigit_ofNat (by omega)

theorem mem_natToChars_isDigit {n : Nat} {c : Char} (h : c ∈ natToChars n) :
    c.isDigit = true := by
  have := pyIsdigit_natToChars n
  simp only [pyIsdigit, Bool.and_eq_true, List.all_eq_true] at this
  exact this.2 c h

theorem natToChars_ne_nil (n : Nat) : natToChars n ≠ [] := by
  have := pyIsdigit_natToChars n
  simp only [pyIsdigit, Bool.and_eq_true, Bool.not_eq_true',
    List.isEmpty_eq_false] at this
  exact this.1

theorem digitsToNat_append (l : List Char) (c : Char) :
    digitsToNat (l ++ [c]) = digitsToNat l * 10 + digitVal c := by
  simp [digitsToNat, List.foldl_append]

theorem digitsToNat_natToChars (n : Nat) : digitsToNat (natToChars n) = n := by
  induction n using Nat.strong_induction_on with
  | _ n ih =>
    rw [natToChars_eq]
    by_cases hn : n < 10
    · simp [hn, digitsToNat, digitVal_ofNat hn]
    · have hd : n / 10 < n := Nat.div_lt_self (by omega) (by omega)
      simp only [hn, if_false]
      rw [digitsToNat_append, ih (n / 10) hd, digitVal_ofNat (by omega)]
      omega

theorem natToChars_injective {i j : Nat} (h : natToChars i = natToChars j) : i = j := by
  have := digitsToNat_natToChars i
  rw [h, digitsToNat_natToChars] at this
  omega

theorem effKey_natToChars (i : Nat) : effKey (natToChars i) = .int i := by
  simp [effKey, pyIsdigit_natToChars, digitsToNat_natToChars]

/-! ## Benign-key facts -/

theorem goodKeyChars_ne_nil {s : List Char} (h : goodKeyChars s = true) : s ≠ [] := by
  simp only [goodKeyChars, Bool.and_eq_true, Bool.not_eq_true',
    List.isEmpty_eq_false] at h
  exact h.1.1

theorem goodKeyChars_not_digit {s : List Char} (h : goodKeyChars s = true) :
    pyIsdigit s = false := by
  simp only [goodKeyChars, Bool.and_eq_true, Bool.not_eq_true'] at h
  exact h.1.2

theorem goodKeyChars_no_seps {s : List Char} (h : goodKeyChars s = true) :
    '.' ∉ s ∧ '[' ∉ s ∧ ']' ∉ s := by
  simp only [goodKeyChars, Bool.and_eq_true, List.all_eq_true] at h
  refine ⟨fun hm => ?_, fun hm => ?_, fun hm => ?_⟩ <;>
    have hc := h.2 _ hm <;> simp at hc

theorem effKey_goodKey {s : List Char} (h : goodKeyChars s = true) :
    effKey s = .str s := by
  simp [effKey, goodKeyChars_not_digit h]

/-! ## Path parse/render lemmas -/

theorem filter_ne_char_eq_self {ch : Char} {k : List Char} (h : ch ∉ k) :
    k.filter (· ≠ ch) = k := by
  apply List.filter_eq_self.mpr
  intro c hc
  simp only [decide_eq_true_eq]
  intro hh
  exact h (hh ▸ hc)

theorem appLast_cons {x : List Char} {l : List (List Char)} {z : List Char} (h : l ≠ []) :
    appLast (x :: l) z = x :: appLast l z := by
  cases l with
  | nil => exact absurd rfl h
  | cons b t => rfl

theorem pySplit_ne_nil (c : Char) (l : List Char) : pySplit c l ≠ [] := by
  induction l with
  | nil => simp [pySplit]
  | cons a t ih =>
    rw [pySplit]
    by_cases hac : a = c
    · simp [hac]
    · simp only [hac, if_false]
      cases hs : pySplit c t with
      | nil => simp
      | cons s ss => simp

theorem pySplit_cons_self (c : Char) (t : List Char) :
    pySplit c (c :: t) = [] :: pySplit c t := by
  rw [pySplit]
  simp

theorem pySplit_cons_ne {a c : Char} (h : ¬a = c) (t : List Char) :
    pySplit c (a :: t) =
      match pySplit c t with
      | [] => [[a]]
      | s :: ss => (a :: s) :: ss := by
  rw [pySplit, if_neg h]

theorem pySplit_not_mem {c : Char} {l : List Char} (h : c ∉ l) : pySplit c l = [l] := by
  induction l with
  | nil => rfl
  | cons a t ih =>
    have hac : ¬a = c := fun hh => h (hh ▸ List.mem_cons_self a t)
    have ht : c ∉ t := fun hh => h (List.mem_cons_of_mem a hh)
    rw [pySplit_cons_ne hac, ih ht]

theorem pySplit_append_cons {c : Char} {k : List Char} (hk : c ∉ k) :
    ∀ y, pySplit c (y ++ c :: k) = pySplit c y ++ [k]
  | [] => by
    rw [List.nil_append]
    simp [pySplit, pySplit_not_mem hk]
  | a :: t => by
    by_cases hac : a = c
    · subst hac
      rw [List.cons_append, pySplit_cons_self, pySplit_append_cons hk t,
        pySplit_cons_self]
      rfl
    · rw [List.cons_append, pySplit_cons_ne hac, pySplit_append_cons hk t,
        pySplit_cons_ne hac]
      cases hs : pySplit c t with
      | nil => exact absurd hs (pySplit_ne_nil c t)
      | cons s ss => rfl

theorem pySplit_append_no {c : Char} {z : List Char} (hz : c ∉ z) :
    ∀ y, pySplit c (y ++ z) = appLast (pySplit c y) z
  | [] => by
    rw [List.nil_append, pySplit_not_mem hz]
    rfl
  | a :: t => by
    by_cases hac : a = c
    · subst hac
      rw [List.cons_append, pySplit_cons_self, pySplit_append_no hz t,
        pySplit_cons_self, appLast_cons (pySplit_ne_nil a t)]
    · rw [List.cons_append, pySplit_cons_ne hac, pySplit_append_no hz t,
        pySplit_cons_ne hac]
      cases hs : pySplit c t with
      | nil => exact absurd hs (pySplit_ne_nil c t)
      | cons s ss =>
        cases ss with
        | nil => rfl
        | cons s2 ss2 => rfl

theorem flatMap_appLast {z : List Char} {k : List Char}
    (hf : ∀ x, pySplit '.' (x ++ z) = pySplit '.' x ++ [k]) :
    ∀ l : List (List Char), l ≠ [] →
      (appLast l z).flatMap (pySplit '.') = l.flatMap (pySplit '.') ++ [k]
  | [], h => absurd rfl h
  | [x], _ => by
    rw [appLast]
    simp [hf x]
  | x :: x2 :: l, _ => by
    rw [appLast_cons (by simp)]
    simp only [List.flatMap_cons]
    rw [flatMap_appLast hf (x2 :: l) (by simp)]
    simp [List.append_assoc]

theorem parseKeys_nil : parseKeys [] = [] := rfl

theorem parseKeys_root_key {k : List Char} (hk : goodKeyChars k = true) :
    parseKeys k = [k] := by
  obtain ⟨hdot, hlb, hrb⟩ := goodKeyChars_no_seps hk
  unfold parseKeys
  rw [filter_ne_char_eq_self hrb]
  rw [pySplit_not_mem hlb]
  simp only [List.flatMap_cons, List.flatMap_nil, List.append_nil]
  rw [pySplit_not_mem hdot]
  simp [goodKeyChars_ne_nil hk]

theorem parseKeys_append_dot_key {k : List Char} (hk : goodKeyChars k = true)
    (parent : List Char) :
    parseKeys (parent ++ '.' :: k) = parseKeys parent ++ [k] := by
  obtain ⟨hdot, hlb, hrb⟩ := goodKeyChars_no_seps hk
  unfold parseKeys
  have hfilter : (parent ++ '.' :: k).filter (· ≠ ']') =
      parent.filter (· ≠ ']') ++ '.' :: k := by
    rw [List.filter_append]
    congr 1
    rw [List.filter_cons]
    simp only [decide_eq_true_eq]
    rw [if_pos (by decide)]
    congr 1
    exact filter_ne_char_eq_self hrb
  rw [hfilter]
  have hnol : '[' ∉ ('.' : Char) :: k := by
    intro hm
    rcases List.mem_cons.mp hm with hm | hm
    · exact absurd hm (by decide)
    · exact hlb hm
  rw [pySplit_append_no hnol]
  rw [flatMap_appLast (fun x => pySplit_append_cons hdot x) _
    (pySplit_ne_nil '[' (parent.filter (· ≠ ']')))]
  rw [List.filter_append]
  congr 1
  simp [goodKeyChars_ne_nil hk]

theorem parseKeys_newKey {k : List Char} (hk : goodKeyChars k = true)
    (parent : List Char) :
    parseKeys (newKey parent (.str k)) = parseKeys parent ++ [k] := by
  rw [newKey]
  by_cases hp : parent.isEmpty
  · rw [if_pos hp]
    rw [List.isEmpty_iff.mp hp, parseKeys_nil, List.nil_append]
    exact parseKeys_root_key hk
  · rw [if_neg hp, keyChars]
    exact parseKeys_append_dot_key hk parent

theorem parseKeys_idxKey (nk : List Char) (i : Nat) :
    parseKeys (idxKey nk i) = parseKeys nk ++ [natToChars i] := by
  have hds : ∀ c ∈ natToChars i, c.isDigit = true := fun c hc => mem_natToChars_isDigit hc
  unfold parseKeys idxKey
  simp only [List.cons_append, List.append_assoc]
  have hfilter : (nk ++ '[' :: (natToChars i ++ [']'])).filter (· ≠ ']') =
      nk.filter (· ≠ ']') ++ '[' :: natToChars i := by
    rw [List.filter_append]
    congr 1
    rw [List.filter_cons]
    simp only [decide_eq_true_eq]
    rw [if_pos (by decide)]
    congr 1
    rw [List.filter_append]
    have h1 : (natToChars i).filter (· ≠ ']') = natToChars i :=
      filter_ne_char_eq_self (fun hm => absurd rfl (isDigit_ne_rbracket (hds _ hm)))
    have h2 : ([']'] : List Char).filter (· ≠ ']') = [] := by decide
    rw [h1, h2, List.append_nil]
  rw [hfilter]
  have hnolb : '[' ∉ natToChars i := fun hm =>
    absurd rfl (isDigit_ne_lbracket (hds _ hm))
  rw [pySplit_append_cons hnolb]
  rw [List.flatMap_append]
  simp only [List.flatMap_cons, List.flatMap_nil, List.append_nil]
  have hnod : '.' ∉ natToChars i := fun hm =>
    absurd rfl (isDigit_ne_dot (hds _ hm))
  rw [pySplit_not_mem hnod]
  rw [List.filter_append]
  congr 1
  simp [natToChars_ne_nil i]

/-! ## `pyDict` lemmas -/

theorem updatePath_keys (k : List Char) (v : Document) (l : List (List Char × Document)) :
    (updatePath k v l).map Prod.fst = l.map Prod.fst := by
  induction l with
  | nil => rfl
  | cons p t ih =>
    obtain ⟨k', v'⟩ := p
    by_cases hk : k' = k
    · simp [updatePath, hk]
    · simp [updatePath, hk, ih]

theorem mem_updatePath {p : List Char × Document} {k : List Char} {v : Document}
    {l : List (List Char × Document)} (h : p ∈ updatePath k v l) :
    p ∈ l ∨ p = (k, v) := by
  induction l with
  | nil => simp [updatePath] at h
  | cons q t ih =>
    obtain ⟨k', v'⟩ := q
    by_cases hk : k' = k
    · subst hk
      rw [updatePath, if_pos rfl] at h
      rcases List.mem_cons.mp h with h | h
      · exact Or.inr h
      · exact Or.inl (List.mem_cons_of_mem _ h)
    · rw [updatePath, if_neg hk] at h
      rcases List.mem_cons.mp h with h | h
      · exact Or.inl (h ▸ List.mem_cons_self _ _)
      · rcases ih h with h | h
        · exact Or.inl (List.mem_cons_of_mem _ h)
        · exact Or.inr h

theorem mem_pyInsert {p q : List Char × Document} {acc : List (List Char × Document)}
    (h : p ∈ pyInsert acc q) : p ∈ acc ∨ p = q := by
  rw [pyInsert] at h
  by_cases hc : containsPath q.1 acc
  · rw [if_pos hc] at h
    rcases mem_updatePath h with h | h
    · exact Or.inl h
    · exact Or.inr (by rw [h])
  · rw [if_neg hc] at h
    rcases List.mem_append.mp h with h | h
    · exact Or.inl h
    · exact Or.inr (List.mem_singleton.mp h)

theorem mem_foldl_pyInsert : ∀ (l acc : List (List Char × Document))
    (p : List Char × Document), p ∈ List.foldl pyInsert acc l → p ∈ acc ∨ p ∈ l
  | [], _, _, h => Or.inl h
  | q :: t, acc, p, h => by
    rw [List.foldl_cons] at h
    rcases mem_foldl_pyInsert t (pyInsert acc q) p h with h | h
    · rcases mem_pyInsert h with h | h
      · exact Or.inl h
      · exact Or.inr (by rw [h]; exact List.mem_cons_self _ _)
    · exact Or.inr (List.mem_cons_of_mem _ h)

/-- Every entry of `dict(items)` is one of the original items. -/
theorem pyDict_subset {l : List (List Char × Document)} {p : List Char × Document}
    (h : p ∈ pyDict l) : p ∈ l := by
  rcases mem_foldl_pyInsert l [] p h with h | h
  · simp at h
  · exact h

theorem containsPath_append (k : List Char) (a b : List (List Char × Document)) :
    containsPath k (a ++ b) = (containsPath k a || containsPath k b) := by
  simp [containsPath, List.any_append]

theorem foldl_pyInsert_fresh : ∀ (l acc : List (List Char × Document)),
    (∀ kk ∈ l.map Prod.fst, containsPath kk acc = false) →
    (l.map Prod.fst).Nodup →
    List.foldl pyInsert acc l = acc ++ l
  | [], acc, _, _ => by simp
  | q :: t, acc, hfresh, hnd => by
    have hq : containsPath q.1 acc = false :=
      hfresh q.1 (List.mem_map.mpr ⟨q, List.mem_cons_self _ _, rfl⟩)
    rw [List.foldl_cons, pyInsert, if_neg (by rw [hq]; exact Bool.false_ne_true)]
    simp only [List.map_cons, List.nodup_cons] at hnd
    rw [foldl_pyInsert_fresh t (acc ++ [q]) ?fresh hnd.2]
    · simp
    case fresh =>
      intro kk hkk
      rw [containsPath_append]
      have h1 := hfresh kk (by simp [hkk])
      have h2 : containsPath kk [q] = false := by
        simp only [containsPath, List.any_cons, List.any_nil, Bool.or_false,
          decide_eq_false_iff_not]
        intro hh
        exact hnd.1 (hh ▸ hkk)
      rw [h1, h2]
      rfl

/-- With duplicate-free keys, `dict(items)` keeps the item list unchanged. -/
theorem pyDict_eq_self {l : List (List Char × Document)}
    (h : (l.map Prod.fst).Nodup) : pyDict l = l := by
  have := foldl_pyInsert_fresh l [] (fun kk _ => by simp [containsPath]) h
  simpa [pyDict] using this

theorem foldl_pyInsert_keys_sublist : ∀ (l acc : List (List Char × Document)),
    List.Sublist ((List.foldl pyInsert acc l).map Prod.fst)
      (acc.map Prod.fst ++ l.map Prod.fst)
  | [], acc => by simp
  | q :: t, acc => by
    rw [List.foldl_cons]
    have ih := foldl_pyInsert_keys_sublist t (pyInsert acc q)
    refine ih.trans ?_
    rw [pyInsert]
    by_cases hc : containsPath q.1 acc
    · rw [if_pos hc, updatePath_keys]
      simp only [List.map_cons]
      exact List.Sublist.append_left (List.sublist_cons_self _ _) _
    · rw [if_neg hc]
      simp

/-- The keys of `dict(items)` are a sublist of the item keys. -/
theorem pyDict_keys_sublist (l : List (List Char × Document)) :
    List.Sublist ((pyDict l).map Prod.fst) (l.map Prod.fst) := by
  have := foldl_pyInsert_keys_sublist l []
  simpa [pyDict] using this

/-! ## Flatten unfolding equations -/

theorem flattenItems_nil (parent : List Char) : flattenItems [] parent = [] := by
  rw [flattenItems]

theorem flattenItems_cons (k : PyKey) (child : Document)
    (rest : List (PyKey × Document)) (parent : List Char) :
    flattenItems ((k, child) :: rest) parent =
      (match child with
       | .obj f => pyDict (flattenItems f (newKey parent k))
       | .arr elems => flattenArr elems (newKey parent k) 0
       | .scalar _ => [(newKey parent k, child)]) ++ flattenItems rest parent := by
  cases child <;> simp [flattenItems]

theorem flattenArr_nil (nk : List Char) (i : Nat) : flattenArr [] nk i = [] := by
  rw [flattenArr]

theorem flattenArr_cons (item : Document) (rest : List Document) (nk : List Char)
    (i : Nat) :
    flattenArr (item :: rest) nk i =
      (match item with
       | .obj f => pyDict (flattenItems f (idxKey nk i))
       | _ => [(idxKey nk i, item)]) ++ flattenArr rest nk (i + 1) := by
  cases item <;> simp [flattenArr]

/-! ## Claim C5 (amended): array traversal emits non-object elements whole -/

/-- C5 amended: for an array node, `flatten` recurses (under prefix `P[i]`)
only into elements that are objects; every non-object element — scalars and
arrays alike — is emitted as a single `(P[i], element)` entry.  In
particular the spec's meters example produces exactly
`meters[0].quantity ↦ 1, meters[1].quantity ↦ 2`, in that order. -/
theorem C5_array_traversal :
    (∀ (elems : List Document) (nk : List Char) (i0 : Nat),
      flattenArr elems nk i0 = (List.enumFrom i0 elems).flatMap fun q =>
        match q.2 with
        | .obj f => pyDict (flattenItems f (idxKey nk q.1))
        | item => [(idxKey nk q.1, item)]) ∧
    flatten_dict [(.str (chars "meters"),
        .arr [.obj [(.str (chars "quantity"), .scalar (.int 1))],
              .obj [(.str (chars "quantity"), .scalar (.int 2))]])] [] =
      [(chars "meters[0].quantity", .scalar (.int 1)),
       (chars "meters[1].quantity", .scalar (.int 2))] := by
  constructor
  · intro elems
    induction elems with
    | nil => intro nk i0; simp [flattenArr_nil]
    | cons item rest ih =>
      intro nk i0
      rw [flattenArr_cons,
        show List.enumFrom i0 (item :: rest) = (i0, item) :: List.enumFrom (i0 + 1) rest
          from rfl,
        List.flatMap_cons, ih nk (i0 + 1)]
      cases item <;> rfl
  · simp [flatten_dict, flattenItems, flattenArr, newKey, idxKey, keyChars, natToChars,
      natToCharsF, pyDict, pyInsert, containsPath, updatePath, chars]

/-! ## Well-formedness unfolding and small dict lemmas -/

theorem goodFields_cons (k : PyKey) (c : Document) (t : List (PyKey × Document)) :
    goodFields ((k, c) :: t) = (goodKey k && goodDoc c && goodFields t) := by
  rw [goodFields]

theorem goodDoc_obj (fields : List (PyKey × Document)) :
    goodDoc (.obj fields) = (goodFields fields && nodupKeys (fields.map Prod.fst)) := by
  rw [goodDoc]

theorem goodDoc_arr (elems : List Document) :
    goodDoc (.arr elems) = goodElems elems := by
  rw [goodDoc]

theorem goodElems_cons (c : Document) (t : List Document) :
    goodElems (c :: t) = (goodDoc c && goodElems t) := by
  rw [goodElems]

theorem lookupKey_cons_self {k : PyKey} {v : Document} {t : List (PyKey × Document)} :
    lookupKey k ((k, v) :: t) = some v := by
  simp [lookupKey]

theorem updateKey_cons_self {k : PyKey} {v w : Document} {t : List (PyKey × Document)} :
    updateKey k w ((k, v) :: t) = (k, w) :: t := by
  simp [updateKey]

theorem lookupKey_cons_ne {q : PyKey × Document} {t : List (PyKey × Document)}
    {key : PyKey} (h : ¬q.1 = key) :
    lookupKey key (q :: t) = lookupKey key t := by
  obtain ⟨k', v'⟩ := q
  simp only [lookupKey, if_neg h]

theorem updateKey_cons_ne {q : PyKey × Document} {t : List (PyKey × Document)}
    {key : PyKey} {c : Document} (h : ¬q.1 = key) :
    updateKey key c (q :: t) = q :: updateKey key c t := by
  obtain ⟨k', v'⟩ := q
  simp only [updateKey, if_neg h]

/-- A self-preserving write inside a dict tail also self-preserves with an
extra unrelated head field. -/
theorem setKeys_obj_lift {q : PyKey × Document} {t : List (PyKey × Document)}
    {kk : List Char} {rel2 : List (List Char)} {v : Document}
    (hne : ¬q.1 = effKey kk)
    (h : setKeys (.obj t) (kk :: rel2) v = .ok (.obj t)) :
    setKeys (.obj (q :: t)) (kk :: rel2) v = .ok (.obj (q :: t)) := by
  cases rel2 with
  | nil =>
    replace h : setLast (.obj t) kk v = .ok (.obj t) := h
    show setLast (.obj (q :: t)) kk v = .ok (.obj (q :: t))
    cases hl : lookupKey (effKey kk) t with
    | none => rw [setLast, hl] at h; simp at h
    | some old =>
      rw [setLast, hl] at h
      simp only [Except.ok.injEq, Document.obj.injEq] at h
      rw [setLast, lookupKey_cons_ne hne, hl]
      simp only [updateKey_cons_ne hne, h]
  | cons r1 r2 =>
    cases hl : lookupKey (effKey kk) t with
    | none =>
      simp only [setKeys, hl] at h
      cases hs : setKeys (if pyIsdigit r1 then Document.arr [] else Document.obj [])
          (r1 :: r2) v with
      | error e => rw [hs] at h; simp [Except.map] at h
      | ok r =>
        rw [hs] at h
        simp only [Except.map, Except.ok.injEq, Document.obj.injEq] at h
        have := congrArg List.length h
        simp at this
    | some child =>
      simp only [setKeys, hl] at h
      cases hs : setKeys child (r1 :: r2) v with
      | error e => rw [hs] at h; simp [Except.map] at h
      | ok r =>
        rw [hs] at h
        simp only [Except.map, Except.ok.injEq, Document.obj.injEq] at h
        simp only [setKeys, lookupKey_cons_ne hne, hl, hs, Except.map,
          updateKey_cons_ne hne, h]

/-! ## Round-trip master lemmas -/

/-- Array part of the round-trip argument: every entry of the array loop of
`flatten_dict` addresses an element `e` at an absolute index `j`, and the
entry's value written back into `e` leaves it unchanged. -/
theorem flatten_arr_aux : ∀ (elems : List Document) (nk : List Char) (i0 : Nat),
    (∀ (f : List (PyKey × Document)) (par : List Char), sizeOf f < sizeOf elems →
      goodFields f = true → nodupKeys (f.map Prod.fst) = true →
      ∀ p v, (p, v) ∈ flattenItems f par →
        ∃ kk rel2, parseKeys p = parseKeys par ++ kk :: rel2 ∧
          effKey kk ∈ f.map Prod.fst ∧
          setKeys (.obj f) (kk :: rel2) v = .ok (.obj f)) →
    goodElems elems = true →
    ∀ p v, (p, v) ∈ flattenArr elems nk i0 →
    ∃ j rel2 e, elems[j - i0]? = some e ∧ i0 ≤ j ∧
      parseKeys p = parseKeys nk ++ natToChars j :: rel2 ∧
      ((rel2 = [] ∧ v = e) ∨ (rel2 ≠ [] ∧ setKeys e rel2 v = .ok e))
  | [], _, _, _, _, p, v, hm => by rw [flattenArr_nil] at hm; simp at hm
  | item :: restE, nk, i0, hIH, hge, p, v, hm => by
    rw [goodElems_cons, Bool.and_eq_true] at hge
    rw [flattenArr_cons] at hm
    rcases List.mem_append.mp hm with hm | hm
    · -- entry produced by the element at index i0
      match item, hm with
      | .obj f, hm =>
        have hmf := pyDict_subset hm
        have hgood : goodFields f = true ∧ nodupKeys (f.map Prod.fst) = true := by
          have := hge.1
          rw [goodDoc_obj, Bool.and_eq_true] at this
          exact this
        have hsz : sizeOf f < sizeOf (Document.obj f :: restE) := by
          simp
          omega
        obtain ⟨kk, rel2, hparse, hmem, hset⟩ :=
          hIH f (idxKey nk i0) hsz hgood.1 hgood.2 p v hmf
        refine ⟨i0, kk :: rel2, .obj f, by simp, le_refl i0, ?_, ?_⟩
        · rw [hparse, parseKeys_idxKey, List.append_assoc]
          rfl
        · exact Or.inr ⟨by simp, hset⟩
      | .scalar sv, hm =>
        rcases List.mem_singleton.mp hm with ⟨rfl, rfl⟩
        refine ⟨i0, [], .scalar sv, by simp, le_refl i0, ?_, Or.inl ⟨rfl, rfl⟩⟩
        rw [parseKeys_idxKey]
      | .arr es, hm =>
        rcases List.mem_singleton.mp hm with ⟨rfl, rfl⟩
        refine ⟨i0, [], .arr es, by simp, le_refl i0, ?_, Or.inl ⟨rfl, rfl⟩⟩
        rw [parseKeys_idxKey]
    · -- entry produced by a later element
      have hIH2 : ∀ (f : List (PyKey × Document)) (par : List Char),
          sizeOf f < sizeOf restE →
          goodFields f = true → nodupKeys (f.map Prod.fst) = true →
          ∀ p v, (p, v) ∈ flattenItems f par →
            ∃ kk rel2, parseKeys p = parseKeys par ++ kk :: rel2 ∧
              effKey kk ∈ f.map Prod.fst ∧
              setKeys (.obj f) (kk :: rel2) v = .ok (.obj f) := by
        intro f par hlt
        exact hIH f par (by simp at hlt ⊢; omega)
      obtain ⟨j, rel2, e, hj, hij, hparse, hprop⟩ :=
        flatten_arr_aux restE nk (i0 + 1) hIH2 hge.2 p v hm
      refine ⟨j, rel2, e, ?_, by omega, hparse, hprop⟩
      have : j - i0 = (j - (i0 + 1)) + 1 := by omega
      rw [this, List.getElem?_cons_succ]
      exact hj

/-- Master lemma: in a well-formed document, every `(path, value)` entry of
the flatten traversal parses back to a relative segment list that starts at
one of the object's own keys, and writing the value back along it returns
the object unchanged. -/
theorem flatten_set_ok : ∀ (n : Nat) (fields : List (PyKey × Document)) (parent : List Char),
    sizeOf fields ≤ n →
    goodFields fields = true → nodupKeys (fields.map Prod.fst) = true →
    ∀ p v, (p, v) ∈ flattenItems fields parent →
    ∃ kk rel2, parseKeys p = parseKeys parent ++ kk :: rel2 ∧
      effKey kk ∈ fields.map Prod.fst ∧
      setKeys (.obj fields) (kk :: rel2) v = .ok (.obj fields) := by
  intro n
  induction n using Nat.strong_induction_on with
  | _ n IHn =>
    intro fields
    induction fields with
    | nil =>
      intro parent _ _ _ p v hm
      rw [flattenItems_nil] at hm
      simp at hm
    | cons q rest IHrest =>
      obtain ⟨k, child⟩ := q
      intro parent hsz hgood hnodup p v hm
      rw [flattenItems_cons] at hm
      rw [goodFields_cons, Bool.and_eq_true, Bool.and_eq_true] at hgood
      have hnodup2 : nodupKeys (rest.map Prod.fst) = true ∧
          ∀ x ∈ rest.map Prod.fst, x ≠ k := by
        simp only [List.map_cons, nodupKeys, Bool.and_eq_true, List.all_eq_true] at hnodup
        exact ⟨hnodup.2, fun x hx => by simpa using hnodup.1 x hx⟩
      rcases List.mem_append.mp hm with hm | hm
      · obtain ⟨ks, rfl, hks⟩ : ∃ ks, k = PyKey.str ks ∧ goodKeyChars ks = true := by
          cases k with
          | str s => exact ⟨s, rfl, by simpa [goodKey] using hgood.1.1⟩
          | int m =>
            have := hgood.1.1
            simp [goodKey] at this
        have hek : effKey ks = PyKey.str ks := effKey_goodKey hks
        match child, hm with
        | .scalar sv, hm =>
          rcases List.mem_singleton.mp hm with ⟨rfl, rfl⟩
          refine ⟨ks, [], ?_, ?_, ?_⟩
          · rw [parseKeys_newKey hks]
          · rw [hek]
            simp
          · show setLast _ ks _ = _
            rw [setLast, hek, lookupKey_cons_self]
            simp [coerceValue_self, updateKey_cons_self]
        | .obj f, hm =>
          have hmf := pyDict_subset hm
          have hgf : goodFields f = true ∧ nodupKeys (f.map Prod.fst) = true := by
            have := hgood.1.2
            rw [goodDoc_obj, Bool.and_eq_true] at this
            exact this
          have hszf : sizeOf f < n := by
            have h1 : sizeOf f <
                sizeOf ((PyKey.str ks, Document.obj f) :: rest) := by
              simp
              omega
            omega
          obtain ⟨kk, rel2, hparse, hmem, hset⟩ := IHn (sizeOf f) hszf f
            (newKey parent (.str ks)) (le_refl _) hgf.1 hgf.2 p v hmf
          refine ⟨ks, kk :: rel2, ?_, ?_, ?_⟩
          · rw [hparse, parseKeys_newKey hks, List.append_assoc]
            rfl
          · rw [hek]
            simp
          · simp only [setKeys, hek, lookupKey_cons_self, hset, Except.map,
              updateKey_cons_self]
        | .arr elems, hm =>
          have hge : goodElems elems = true := by
            have := hgood.1.2
            rwa [goodDoc_arr] at this
          have hIHa : ∀ (f : List (PyKey × Document)) (par : List Char),
              sizeOf f < sizeOf elems →
              goodFields f = true → nodupKeys (f.map Prod.fst) = true →
              ∀ p v, (p, v) ∈ flattenItems f par →
                ∃ kk rel2, parseKeys p = parseKeys par ++ kk :: rel2 ∧
                  effKey kk ∈ f.map Prod.fst ∧
                  setKeys (.obj f) (kk :: rel2) v = .ok (.obj f) := by
            intro f par hlt
            have hszf : sizeOf f < n := by
              have h1 : sizeOf elems <
                  sizeOf ((PyKey.str ks, Document.arr elems) :: rest) := by
                simp
                omega
              omega
            exact IHn (sizeOf f) hszf f par (le_refl _)
          obtain ⟨j, rel2, e, hj, _, hparse, hprop⟩ :=
            flatten_arr_aux elems (newKey parent (.str ks)) 0 hIHa hge p v hm
          rw [Nat.sub_zero] at hj
          obtain ⟨hjl, hje⟩ := List.getElem?_eq_some_iff.mp hj
          have hd : digitsToNat (natToChars j) = j := digitsToNat_natToChars j
          have hinner : setKeys (.arr elems) (natToChars j :: rel2) v =
              .ok (.arr elems) := by
            rcases hprop with ⟨hrel, hv⟩ | ⟨hrel, hset2⟩
            · subst hrel
              show setLast (.arr elems) (natToChars j) v = _
              rw [setLast, if_pos (pyIsdigit_natToChars j)]
              simp only [hd]
              rw [dif_pos hjl, hje, hv, coerceValue_self, ← hje,
                set_self_of_getElem hjl]
            · cases rel2 with
              | nil => exact absurd rfl hrel
              | cons r1 r2 =>
                rw [setKeys, if_pos (pyIsdigit_natToChars j)]
                simp only [hd]
                rw [dif_pos hjl, hje, hset2, Except.map, ← hje,
                  set_self_of_getElem hjl]
          refine ⟨ks, natToChars j :: rel2, ?_, ?_, ?_⟩
          · rw [hparse, parseKeys_newKey hks, List.append_assoc]
            rfl
          · rw [hek]
            simp
          · simp only [setKeys, hek, lookupKey_cons_self, hinner, Except.map,
              updateKey_cons_self]
      · obtain ⟨kk, rel2, hparse, hmem, hset⟩ := IHrest parent
          (by simp at hsz ⊢; omega) hgood.2 hnodup2.1 p v hm
        refine ⟨kk, rel2, hparse, List.mem_cons_of_mem _ hmem, ?_⟩
        exact setKeys_obj_lift (fun hh => hnodup2.2 (effKey kk) hmem hh.symm) hset

/-! ## Claim C1 (amended): round-trip identity on benign-keyed documents -/

theorem applyAll_of_each (fields : List (PyKey × Document)) :
    ∀ (pairs : List (List Char × Document)),
    (∀ pv ∈ pairs, set_nested_value (.obj fields) pv.1 pv.2 = .ok (.obj fields)) →
    applyAll (.obj fields) pairs = .ok (.obj fields)
  | [], _ => rfl
  | pv :: t, hall => by
    rw [applyAll, List.foldlM_cons, hall pv (List.mem_cons_self _ _)]
    show applyAll (.obj fields) t = _
    exact applyAll_of_each fields t (fun q hq => hall q (List.mem_cons_of_mem _ hq))

/-- C1 amended: for a document whose object keys are benign (nonempty,
not all digits, free of `.`/`[`/`]`) and unique at every level, flattening
and re-applying every `(path, value)` pair with `set_nested_value` returns
the document unchanged. -/
theorem C1_roundtrip_good (fields : List (PyKey × Document))
    (hg : goodDoc (.obj fields) = true) :
    applyAll (.obj fields) (flatten_dict fields []) = .ok (.obj fields) := by
  rw [goodDoc_obj, Bool.and_eq_true] at hg
  apply applyAll_of_each
  intro pv hpv
  have hmem : (pv.1, pv.2) ∈ flattenItems fields [] := pyDict_subset hpv
  obtain ⟨kk, rel2, hparse, _, hset⟩ := flatten_set_ok (sizeOf fields) fields []
    (le_refl _) hg.1 hg.2 pv.1 pv.2 hmem
  rw [parseKeys_nil, List.nil_append] at hparse
  simp only [set_nested_value, hparse]
  exact hset

/-- Witness for the amended C1 on the CloudEvents-style example document. -/
theorem C1_witness :
    applyAll metersDoc
        (flatten_dict [(.str (chars "data"), .obj [(.str (chars "meters"),
          .arr [.obj [(.str (chars "quantity"), .scalar (.int 10))]])])] []) =
      .ok metersDoc :=
  C1_roundtrip_good
    [(.str (chars "data"), .obj [(.str (chars "meters"),
      .arr [.obj [(.str (chars "quantity"), .scalar (.int 10))]])])]
    (by simp [goodDoc, goodFields, goodElems, goodKey, goodKeyChars, nodupKeys,
      pyIsdigit, chars])

/-! ## Claim C6 (amended): leaf coverage -/

theorem pathsNodupF_nil (parent : List Char) : pathsNodupF [] parent = true := by
  rw [pathsNodupF]

theorem pathsNodupF_cons (k : PyKey) (child : Document)
    (rest : List (PyKey × Document)) (parent : List Char) :
    pathsNodupF ((k, child) :: rest) parent =
      ((match child with
        | .obj f => pathsNodupD f (newKey parent k)
        | .arr elems => pathsNodupA elems (newKey parent k) 0
        | .scalar _ => true) && pathsNodupF rest parent) := by
  cases child <;> simp [pathsNodupF]

theorem pathsNodupD_eq (f : List (PyKey × Document)) (nk : List Char) :
    pathsNodupD f nk =
      (decide (((flattenItems f nk).map Prod.fst).Nodup) && pathsNodupF f nk) := by
  rw [pathsNodupD]

theorem pathsNodupA_nil (nk : List Char) (i : Nat) : pathsNodupA [] nk i = true := by
  rw [pathsNodupA]

theorem pathsNodupA_cons (item : Document) (rest : List Document) (nk : List Char)
    (i : Nat) :
    pathsNodupA (item :: rest) nk i =
      ((match item with
        | .obj f => pathsNodupD f (idxKey nk i)
        | _ => true) && pathsNodupA rest nk (i + 1)) := by
  cases item <;> simp [pathsNodupA]

theorem countLeaves_scalar (v : PyVal) : countLeaves (.scalar v) = 1 := by
  rw [countLeaves]

theorem countLeaves_obj (fields : List (PyKey × Document)) :
    countLeaves (.obj fields) = countLeavesFl fields := by
  rw [countLeaves]

theorem countLeavesFl_nil : countLeavesFl [] = 0 := by
  rw [countLeavesFl]

theorem countLeavesFl_cons (k : PyKey) (c : Document)
    (t : List (PyKey × Document)) :
    countLeavesFl ((k, c) :: t) = countLeaves c + countLeavesFl t := by
  rw [countLeavesFl]

theorem countLeavesEl_nil : countLeavesEl [] = 0 := by
  rw [countLeavesEl]

theorem countLeavesEl_cons (c : Document) (t : List Document) :
    countLeavesEl (c :: t) = countLeaves c + countLeavesEl t := by
  rw [countLeavesEl]

theorem noArrInArr_obj (fields : List (PyKey × Document)) :
    noArrInArr (.obj fields) = noArrInArrFl fields := by
  rw [noArrInArr]

theorem noArrInArrFl_cons (k : PyKey) (c : Document)
    (t : List (PyKey × Document)) :
    noArrInArrFl ((k, c) :: t) = (noArrInArr c && noArrInArrFl t) := by
  rw [noArrInArrFl]

theorem noArrInArrEl_cons (c : Document) (t : List Document) :
    noArrInArrEl (c :: t) =
      ((match c with | .arr _ => false | _ => true) &&
        noArrInArr c && noArrInArrEl t) := by
  cases c <;> simp [noArrInArrEl]

theorem flatten_len_arr_aux : ∀ (elems : List Document) (nk : List Char) (i0 : Nat),
    (∀ (f : List (PyKey × Document)) (par : List Char), sizeOf f < sizeOf elems →
      noArrInArrFl f = true → pathsNodupF f par = true →
      (flattenItems f par).length = countLeavesFl f) →
    noArrInArrEl elems = true → pathsNodupA elems nk i0 = true →
    (flattenArr elems nk i0).length = countLeavesEl elems
  | [], _, _, _, _, _ => by
    rw [flattenArr_nil, countLeavesEl_nil]
    rfl
  | item :: restE, nk, i0, hIH, hna, hnd => by
    rw [noArrInArrEl_cons, Bool.and_eq_true, Bool.and_eq_true] at hna
    rw [pathsNodupA_cons, Bool.and_eq_true] at hnd
    rw [flattenArr_cons, countLeavesEl_cons, List.length_append]
    have hIH2 : ∀ (f : List (PyKey × Document)) (par : List Char),
        sizeOf f < sizeOf restE →
        noArrInArrFl f = true → pathsNodupF f par = true →
        (flattenItems f par).length = countLeavesFl f := by
      intro f par hlt
      exact hIH f par (by simp at hlt ⊢; omega)
    rw [flatten_len_arr_aux restE nk (i0 + 1) hIH2 hna.2 hnd.2]
    congr 1
    match item, hna, hnd with
    | .scalar sv, _, _ =>
      rw [countLeaves_scalar]
      rfl
    | .arr es, hna, _ =>
      have hfalse : (false : Bool) = true := hna.1.1
      exact absurd hfalse (by simp)
    | .obj f, hna, hnd =>
      have hD : pathsNodupD f (idxKey nk i0) = true := hnd.1
      rw [pathsNodupD_eq, Bool.and_eq_true, decide_eq_true_eq] at hD
      show (pyDict (flattenItems f (idxKey nk i0))).length = countLeaves (Document.obj f)
      have hn : noArrInArrFl f = true := by
        have := hna.1.2
        rwa [noArrInArr_obj] at this
      have hsz : sizeOf f < sizeOf (Document.obj f :: restE) := by
        simp
        omega
      rw [pyDict_eq_self hD.1, countLeaves_obj]
      exact hIH f (idxKey nk i0) hsz hn hD.2

/-- Master counting lemma: with no array nested directly in an array and
pairwise-distinct generated paths at every object level, the flatten item
list has exactly one entry per scalar leaf. -/
theorem flatten_len_ok : ∀ (n : Nat) (fields : List (PyKey × Document)) (parent : List Char),
    sizeOf fields ≤ n →
    noArrInArrFl fields = true → pathsNodupF fields parent = true →
    (flattenItems fields parent).length = countLeavesFl fields := by
  intro n
  induction n using Nat.strong_induction_on with
  | _ n IHn =>
    intro fields
    induction fields with
    | nil =>
      intro parent _ _ _
      rw [flattenItems_nil, countLeavesFl_nil]
      rfl
    | cons q rest IHrest =>
      obtain ⟨k, child⟩ := q
      intro parent hsz hna hnd
      rw [noArrInArrFl_cons, Bool.and_eq_true] at hna
      rw [pathsNodupF_cons, Bool.and_eq_true] at hnd
      rw [flattenItems_cons, countLeavesFl_cons, List.length_append]
      rw [IHrest parent (by simp at hsz ⊢; omega) hna.2 hnd.2]
      congr 1
      match child, hna, hnd with
      | .scalar sv, _, _ =>
        rw [countLeaves_scalar]
        rfl
      | .obj f, hna, hnd =>
        have hD : pathsNodupD f (newKey parent k) = true := hnd.1
        rw [pathsNodupD_eq, Bool.and_eq_true, decide_eq_true_eq] at hD
        show (pyDict (flattenItems f (newKey parent k))).length = countLeaves (Document.obj f)
        have hn : noArrInArrFl f = true := by
          have := hna.1
          rwa [noArrInArr_obj] at this
        have hszf : sizeOf f < n := by
          have h1 : sizeOf f < sizeOf ((k, Document.obj f) :: rest) := by
            simp
            omega
          omega
        rw [pyDict_eq_self hD.1, countLeaves_obj]
        exact IHn (sizeOf f) hszf f (newKey parent k) (le_refl _) hn hD.2
      | .arr elems, hna, hnd =>
        have hne : noArrInArrEl elems = true := by
          have := hna.1
          rwa [noArrInArr] at this
        have hIHa : ∀ (f : List (PyKey × Document)) (par : List Char),
            sizeOf f < sizeOf elems →
            noArrInArrFl f = true → pathsNodupF f par = true →
            (flattenItems f par).length = countLeavesFl f := by
          intro f par hlt
          have hszf : sizeOf f < n := by
            have h1 : sizeOf elems < sizeOf ((k, Document.arr elems) :: rest) := by
              simp
              omega
            omega
          exact IHn (sizeOf f) hszf f par (le_refl _)
        have hA : pathsNodupA elems (newKey parent k) 0 = true := hnd.1
        show (flattenArr elems (newKey parent k) 0).length = countLeaves (Document.arr elems)
        rw [countLeaves]
        exact flatten_len_arr_aux elems (newKey parent k) 0 hIHa hne hA

/-- C6 (amended): provided no array element of the document is itself an
array and the path strings produced at every object level of the traversal
are pairwise distinct, the number of entries in `flatten_dict` equals the
number of scalar leaves counted recursively. -/
theorem C6_leaf_coverage (fields : List (PyKey × Document))
    (hna : noArrInArr (.obj fields) = true)
    (hnd : pathsNodup fields [] = true) :
    (flatten_dict fields []).length = countLeaves (.obj fields) := by
  rw [pathsNodup, Bool.and_eq_true, decide_eq_true_eq] at hnd
  rw [noArrInArr_obj] at hna
  rw [flatten_dict, pyDict_eq_self hnd.1, countLeaves_obj]
  exact flatten_len_ok (sizeOf fields) fields [] (le_refl _) hna hnd.2

/-- Witness for C6 on a concrete document with three leaves, one of them
inside an object nested in an array. -/
theorem C6_witness :
    noArrInArr (.obj exDoc6) = true ∧ pathsNodup exDoc6 [] = true ∧
      (flatten_dict exDoc6 []).length = countLeaves (.obj exDoc6) := by
  have hna : noArrInArr (.obj exDoc6) = true := by
    simp [exDoc6, noArrInArr, noArrInArrFl, noArrInArrEl]
  have hnd : pathsNodup exDoc6 [] = true := by
    simp [exDoc6, pathsNodup, pathsNodupF, pathsNodupA, pathsNodupD,
      flattenItems, flattenArr, newKey, idxKey, keyChars, natToChars,
      natToCharsF, pyDict, pyInsert, containsPath, updatePath, List.Nodup]
  exact ⟨hna, hnd, C6_leaf_coverage exDoc6 hna hnd⟩
